import Mathlib

set_option maxHeartbeats 1000000
set_option maxRecDepth 100000

/-!
Verification of the graph core of the topology-visualizer repository:
topology generators (ring, mesh, torus, hypercube), the adjacency builder,
single-source BFS, all-pairs metrics aggregation and shortest-path
reconstruction.  Definitions are shallow embeddings of the JavaScript
functions of the same names; JS `Map`s become functions into `Option`
(with `none` for an absent key), the `Infinity` sentinel becomes an inner
`none`, and JS numbers become `Nat`/`Int`/`ℚ` as appropriate.
-/

namespace TV

/-- A graph node: `id` plus the topology metadata the generators attach
(`row`/`col` for mesh and torus, `binary` for the hypercube). -/
structure Node where
  id : Nat
  row : Option Nat := none
  col : Option Nat := none
  binary : Option (List Char) := none
deriving DecidableEq, Repr

/-- An edge, a pair `{source, target}` of node ids. -/
structure Edge where
  source : Nat
  target : Nat
deriving DecidableEq, Repr

/-- A generated graph: `{nodes, edges}`. -/
structure Graph where
  nodes : List Node
  edges : List Edge
deriving DecidableEq, Repr

/-- The list of node ids of a graph. -/
def Graph.ids (g : Graph) : List Nat := g.nodes.map (fun nd => nd.id)

/-- State of the `addedEdges` dedup set and the `edges` array a generator
builds up.  The JS string key `min-max` is modelled as the pair
`(min, max)` itself: decimal rendering with a dash separator is injective
on pairs of naturals, so the set of strings and the set of pairs dedup
identically. -/
structure EdgeAcc where
  edges : List Edge
  addedEdges : List (Nat × Nat)
deriving DecidableEq, Repr

/-- The canonical `(min, max)` key of a candidate pair. -/
def canonKey (p : Nat × Nat) : Nat × Nat := (min p.1 p.2, max p.1 p.2)

/-- The `addEdge(u, v)` helper shared by `generateRing` and `generateTorus`
(`selfCheck = true`: it also refuses `min === max`), and the inline
dedup-and-push of `generateHypercube` (`selfCheck = false`: no self-loop
check there). -/
def addEdgeCore (selfCheck : Bool) (acc : EdgeAcc) (p : Nat × Nat) : EdgeAcc :=
  if canonKey p ∉ acc.addedEdges ∧ (selfCheck = false ∨ (canonKey p).1 ≠ (canonKey p).2) then
    { edges := acc.edges ++ [⟨p.1, p.2⟩], addedEdges := acc.addedEdges ++ [canonKey p] }
  else
    acc

/-- The guard of the `console.warn` in `generateRing`: a (non-fatal) warning
is signaled exactly when the provided skip differs from the clamped one. -/
def ringWarns (n : Nat) (skip : Int) : Bool :=
  skip ≠ max 1 (min skip (max 1 ((n : Int) / 2)))

/-- `generateRing(n, skip)`.  `skip` is an `Int` (the JS caller may pass any
integer); `Math.floor(n / 2)` for a natural `n` is `Int` division by 2. -/
def generateRing (n : Nat) (skip : Int) : Graph :=
  if n < 1 then ⟨[], []⟩ else
  let maxSkip : Int := max 1 ((n : Int) / 2)
  let validSkip : Int := max 1 (min skip maxSkip)
  let s : Nat := validSkip.toNat
  let nodes : List Node := (List.range n).map (fun i => { id := i })
  if n ≤ 1 then ⟨nodes, []⟩ else
  let acc := (List.range n).foldl (fun a i => addEdgeCore true a (i, (i + 1) % n)) ⟨[], []⟩
  let acc :=
    if 1 < validSkip ∧ 3 ≤ n then
      (List.range n).foldl (fun a i => addEdgeCore true a (i, (i + s) % n)) acc
    else acc
  ⟨nodes, acc.edges⟩

/-- One body iteration of `generateMesh`'s nested loop: assign the next
counter id to cell `(r, c)`, record it in `nodeGrid`, and link the new node
to its left neighbour (when `c > 0`) and its upper neighbour (when
`r > 0`). -/
structure MeshAcc where
  nodes : List Node
  edges : List Edge
  idCounter : Nat
  nodeGrid : Nat → Nat → Nat

/-- The loop body of `generateMesh`. -/
def meshStep (acc : MeshAcc) (r c : Nat) : MeshAcc :=
  let nodeId := acc.idCounter
  let grid := fun r' c' => if r' = r ∧ c' = c then nodeId else acc.nodeGrid r' c'
  let leftEdges := if 0 < c then [Edge.mk nodeId (grid r (c - 1))] else []
  let upEdges := if 0 < r then [Edge.mk nodeId (grid (r - 1) c)] else []
  { nodes := acc.nodes ++ [{ id := nodeId, row := some r, col := some c }]
    edges := acc.edges ++ leftEdges ++ upEdges
    idCounter := nodeId + 1
    nodeGrid := grid }

/-- `generateMesh(rows, cols)`: row-major double loop with a sequential id
counter, edges to the previous cell in the row and in the column. -/
def generateMesh (rows cols : Nat) : Graph :=
  if rows < 1 ∨ cols < 1 then ⟨[], []⟩ else
  let acc := (List.range rows).foldl
    (fun a r => (List.range cols).foldl (fun a c => meshStep a r c) a)
    ⟨[], [], 0, fun _ _ => 0⟩
  ⟨acc.nodes, acc.edges⟩

/-- `nodeAt(r, c)` of `generateTorus`: wrap both coordinates and encode
row-major. -/
def torusNodeAt (rows cols r c : Nat) : Nat :=
  ((r + rows) % rows) * cols + ((c + cols) % cols)

/-- `generateTorus(rows, cols)`: ids `r*cols + c`, an edge to the node below
(wrapped) when `rows > 1` and to the node to the right (wrapped) when
`cols > 1`, deduplicated through `addEdge`. -/
def generateTorus (rows cols : Nat) : Graph :=
  if rows < 1 ∨ cols < 1 then ⟨[], []⟩ else
  let nodes : List Node := (List.range rows).flatMap (fun r =>
    (List.range cols).map (fun c => { id := r * cols + c, row := some r, col := some c }))
  let cand : List (Nat × Nat) := (List.range rows).flatMap (fun r =>
    (List.range cols).flatMap (fun c =>
      (if 1 < rows then [(torusNodeAt rows cols r c, torusNodeAt rows cols (r + 1) c)] else []) ++
      (if 1 < cols then [(torusNodeAt rows cols r c, torusNodeAt rows cols r (c + 1))] else [])))
  ⟨nodes, (cand.foldl (addEdgeCore true) ⟨[], []⟩).edges⟩

/-- Binary digits of a positive natural, most significant first
(JS `i.toString(2)` without the special case for zero). -/
def binCore (i : Nat) : List Char :=
  if h : i = 0 then []
  else binCore (i / 2) ++ [if i % 2 = 1 then '1' else '0']
termination_by i
decreasing_by exact Nat.div_lt_self (Nat.pos_of_ne_zero h) (by decide)

/-- JS `i.toString(2)`: minimal binary representation, `"0"` for zero. -/
def natToBinChars (i : Nat) : List Char := if i = 0 then ['0'] else binCore i

/-- JS `s.padStart(d, fill)`: left-pad to length `d` (never truncates). -/
def padStart (d : Nat) (fill : Char) (s : List Char) : List Char :=
  List.replicate (d - s.length) fill ++ s

/-- `generateHypercube` after its clamping of the dimension: `2^d` nodes
carrying their zero-padded binary strings, one candidate edge `(i, i xor
(1 <<< j))` per node and bit position, deduplicated by canonical key (the
inline dedup has no `min !== max` check). -/
def hypercubeCore (d : Nat) : Graph :=
  let n := 2 ^ d
  let nodes : List Node := (List.range n).map (fun i =>
    { id := i, binary := some (padStart d '0' (natToBinChars i)) })
  let edges :=
    if 0 < d then
      (((List.range n).flatMap (fun i =>
        (List.range d).map (fun j => (i, i ^^^ (1 <<< j))))).foldl
          (addEdgeCore false) ⟨[], []⟩).edges
    else []
  ⟨nodes, edges⟩

/-- The dimension clamp of `generateHypercube`: `d < 0` becomes `0`,
`d > 10` becomes `10` (the latter with a warning). -/
def clampDim (dIn : Int) : Nat := (min (max dIn 0) 10).toNat

/-- `generateHypercube(d)`: clamp the dimension, then build the cube. -/
def generateHypercube (dIn : Int) : Graph :=
  hypercubeCore (clampDim dIn)

/-- Degree of node `v`: each undirected edge counted once per endpoint it
contributes to `v`. -/
def degree (g : Graph) (v : Nat) : Nat :=
  (g.edges.filter (fun e => e.source = v)).length +
    (g.edges.filter (fun e => e.target = v)).length

/-- The clamped skip of `generateRing`: `skip` forced into
`[1, max 1 (floor (n / 2))]`. -/
def clampSkip (n : Nat) (skip : Int) : Int :=
  max 1 (min skip (max 1 ((n : Int) / 2)))

/-- A JS `Map` with numeric keys and values: a function into `Option`;
`none` is an absent key (JS `undefined`), `some none` the
`Infinity`-or-`null` sentinel, `some (some x)` a finite value. -/
abbrev JsMap := Nat → Option (Option Nat)

/-- `m.set(k, x)` for a sentinel-or-finite value `x`. -/
def mapSet (m : JsMap) (k : Nat) (x : Option Nat) : JsMap :=
  fun a => if a = k then some x else m a

/-- The adjacency mapping, a JS `Map` from node id to neighbour list. -/
abbrev AdjMap := Nat → Option (List Nat)

/-- `adjacencyList.get(k)?.push(v)`: appends only when the key is present. -/
def adjPush (m : AdjMap) (k v : Nat) : AdjMap :=
  fun a => if a = k then (m k).map (fun l => l ++ [v]) else m a

/-- The adjacency builder: one (initially empty) entry per node, then both
directions of every edge. -/
def buildAdj (g : Graph) : AdjMap :=
  let init : AdjMap := fun a => if a ∈ g.ids then some [] else none
  g.edges.foldl (fun m e => adjPush (adjPush m e.source e.target) e.target e.source) init

/-- `adj.get(u) || []`, the neighbour list `bfs` iterates over. -/
def nbrs (adj : AdjMap) (u : Nat) : List Nat := (adj u).getD []

/-- The mutable state of `bfs`: the two maps and the unprocessed part of the
queue (`queue[head..]`; the dequeued prefix is never read again). -/
structure BfsState where
  dist : JsMap
  pred : JsMap
  queue : List Nat

/-- `distances.get(u) + 1`, the value stored for a newly discovered
neighbour.  In every state `bfs` actually runs through, the dequeued node
`u` holds a finite distance, so only the first branch is live; JS
`Infinity + 1` is `Infinity` (second branch), and `undefined + 1` is `NaN`,
which like the sentinel never compares equal to `Infinity` afterwards
(third branch). -/
def jsSucc : Option (Option Nat) → Option Nat
  | some (some d) => some (d + 1)
  | some none => none
  | none => none

/-- Body of the `for (const v of neighbors)` loop for dequeued node `u`:
discover `v` when its distance is still `Infinity`. -/
def bfsVisit (u : Nat) (s : BfsState) (v : Nat) : BfsState :=
  if s.dist v = some none then
    { dist := mapSet s.dist v (jsSucc (s.dist u))
      pred := mapSet s.pred v (some u)
      queue := s.queue ++ [v] }
  else s

/-- The `while (head < queue.length)` loop.  The fuel only bounds the number
of dequeue steps; `bfs` supplies enough for the loop to always drain the
queue (every node is enqueued at most once). -/
def bfsLoop (adj : AdjMap) : Nat → BfsState → BfsState
  | 0, s => s
  | fuel + 1, s =>
    match s.queue with
    | [] => s
    | u :: rest =>
      bfsLoop adj fuel ((nbrs adj u).foldl (bfsVisit u) { s with queue := rest })

/-- `bfs(startNodeId, adj, allNodes)`: initialise every node's distance to
`Infinity` and predecessor to `null`, set the start distance to `0`, then
run the FIFO loop. -/
def bfs (startNodeId : Nat) (adj : AdjMap) (allNodes : List Node) : BfsState :=
  let ids := allNodes.map (fun nd => nd.id)
  let dist0 : JsMap := mapSet (fun v => if v ∈ ids then some none else none) startNodeId (some 0)
  let pred0 : JsMap := fun v => if v ∈ ids then some none else none
  bfsLoop adj (ids.length + 1) ⟨dist0, pred0, [startNodeId]⟩

/-- The `while (current !== source && safety < maxPathLength)` walk of
`reconstructPath`, with fuel `maxPathLength - safety`.  `none` models the
JS `null` failure on a missing (`null` or `undefined`) predecessor;
otherwise the final `current` and the accumulated path are returned for the
checks after the loop. -/
def reconstructGo (pred : JsMap) (source : Nat) :
    Nat → Nat → List Nat → Option (Nat × List Nat)
  | 0, current, path => some (current, path)
  | fuel + 1, current, path =>
    if current = source then some (current, path)
    else
      match pred current with
      | some (some prev) => reconstructGo pred source fuel prev (prev :: path)
      | _ => none

/-- `reconstructPath(source, target, predecessors)`; `size` is
`predecessors.size`, the number of keys of the predecessor map.  The result
`none` models the JS `null` failure signal. -/
def reconstructPath (source target : Nat) (pred : JsMap) (size : Nat) : Option (List Nat) :=
  match reconstructGo pred source size target [target] with
  | none => none
  | some (current, path) => if current = source then some path else none

/-- The metrics record; `none` is the `Infinity` ("Disconnected") sentinel.
JS number arithmetic on the average (a ratio of two exact integer counters)
is modelled by exact rationals. -/
structure Metrics where
  diameter : Option Nat
  avgPathLength : Option ℚ
  isConnected : Bool
deriving DecidableEq, Repr

/-- JS `parseFloat(x.toFixed(3))` for the finite nonnegative averages that
occur here, on exact rationals: round to the nearest thousandth, ties
upward. -/
def round3 (q : ℚ) : ℚ := (⌊q * 1000 + 1 / 2⌋ : ℚ) / 1000

/-- Accumulator of the per-source `distances.forEach` in
`calculateGraphMetrics`; `totalSum` and `pairCount` are the running totals
shared across sources. -/
structure DistAcc where
  currentMax : Nat
  reachableCount : Nat
  totalSum : Nat
  pairCount : Nat
deriving DecidableEq, Repr

/-- One `distances.forEach` step: skip unreachable (`Infinity`) entries,
count reachable ones, and fold positive distances into the running totals.
`forEach` only visits present keys, so the absent case is dead. -/
def distStep (dist : JsMap) (acc : DistAcc) (k : Nat) : DistAcc :=
  match dist k with
  | some (some d) =>
    { currentMax := max acc.currentMax d
      reachableCount := acc.reachableCount + 1
      totalSum := if 0 < d then acc.totalSum + d else acc.totalSum
      pairCount := if 0 < d then acc.pairCount + 1 else acc.pairCount }
  | _ => acc

/-- Accumulator of the outer source loop of `calculateGraphMetrics`. -/
structure MetricsAcc where
  maxDistance : Nat
  totalSum : Nat
  pairCount : Nat
  isConnected : Bool
  nodesInFirstComponent : Nat
deriving DecidableEq, Repr

/-- Body of `for (let i = 0; i < n; i++)` in `calculateGraphMetrics`: run
`bfs` from `graph.nodes[i]`, fold its distance map (the keys of that JS
`Map` are the distinct node ids, in order), then the connectivity check. -/
def metricsStep (g : Graph) (adj : AdjMap) (n : Nat) (acc : MetricsAcc)
    (i : Nat) (nd : Node) : MetricsAcc :=
  let s := bfs nd.id adj g.nodes
  let d := (g.ids.dedup).foldl (distStep s.dist) ⟨0, 0, acc.totalSum, acc.pairCount⟩
  let cc : Bool × Nat :=
    if i = 0 then
      (if d.reachableCount < n then false else acc.isConnected, d.reachableCount)
    else
      (if acc.isConnected ∧ d.reachableCount ≠ acc.nodesInFirstComponent then false
       else acc.isConnected, acc.nodesInFirstComponent)
  { maxDistance := max acc.maxDistance d.currentMax
    totalSum := d.totalSum
    pairCount := d.pairCount
    isConnected := cc.1
    nodesInFirstComponent := cc.2 }

/-- `calculateGraphMetrics(graph, adj)`. -/
def calculateGraphMetrics (g : Graph) (adj : AdjMap) : Metrics :=
  let n := g.nodes.length
  if n ≤ 1 then ⟨some 0, some 0, true⟩ else
  let acc := (g.nodes.enum).foldl (fun a p => metricsStep g adj n a p.1 p.2) ⟨0, 0, 0, true, 0⟩
  let diameter : Option Nat := if acc.isConnected then some acc.maxDistance else none
  let avg : Option ℚ :=
    if acc.isConnected ∧ 0 < acc.pairCount then
      some (round3 ((acc.totalSum : ℚ) / (acc.pairCount : ℚ)))
    else none
  ⟨diameter, avg, acc.isConnected⟩

/-- Walks over the adjacency mapping: `WalkN adj a b k` states that there is
a walk of `k` unit-weight steps from `a` to `b`. -/
inductive WalkN (adj : AdjMap) (a : Nat) : Nat → Nat → Prop
  | refl : WalkN adj a a 0
  | step {u k v} : WalkN adj a u k → v ∈ nbrs adj u → WalkN adj a v (k + 1)

/-- Spec-side shortest-path distance: the least walk length (meaningful when
some walk exists). -/
noncomputable def sdist (adj : AdjMap) (a b : Nat) : Nat := sInf { k | WalkN adj a b k }

/-- `b` can be reached from `a` along the adjacency. -/
def Reachable (adj : AdjMap) (a b : Nat) : Prop := ∃ k, WalkN adj a b k

/-- The graph is connected: every node reaches every node. -/
def specConnected (g : Graph) : Prop :=
  ∀ a ∈ g.ids, ∀ b ∈ g.ids, Reachable (buildAdj g) a b

/-- Every edge endpoint references an existing node id. -/
def validEdges (g : Graph) : Prop := ∀ e ∈ g.edges, e.source ∈ g.ids ∧ e.target ∈ g.ids

/-- Two edges carry the same unordered pair. -/
def sameUnordered (e₁ e₂ : Edge) : Prop :=
  (e₁.source = e₂.source ∧ e₁.target = e₂.target) ∨
    (e₁.source = e₂.target ∧ e₁.target = e₂.source)

/-- The canonical key of an edge. -/
def keyOf (e : Edge) : Nat × Nat := canonKey (e.source, e.target)

/-- The graph invariant: dense ids `[0, n)` in order, no self-loops, edge
endpoints in range, and no unordered pair listed twice. -/
def GraphWF (g : Graph) : Prop :=
  g.ids = List.range g.nodes.length ∧
  (∀ e ∈ g.edges, e.source ≠ e.target ∧
    e.source < g.nodes.length ∧ e.target < g.nodes.length) ∧
  List.Pairwise (fun e₁ e₂ => ¬ sameUnordered e₁ e₂) g.edges

/-- The spec-side diameter: the maximum of the shortest-path distance over
all ordered pairs of node ids. -/
noncomputable def specDiameter (g : Graph) : Nat :=
  g.ids.foldl (fun m a => g.ids.foldl (fun m b => max m (sdist (buildAdj g) a b)) m) 0

/-- The spec-side sum of shortest-path distances over all ordered non-self
pairs of node ids. -/
noncomputable def specTotalSum (g : Graph) : Nat :=
  (g.ids.map (fun a => ((g.ids.filter (fun b => decide (b ≠ a))).map
    (fun b => sdist (buildAdj g) a b)).sum)).sum

/-- The number of ordered non-self pairs of node ids. -/
def specPairCount (g : Graph) : Nat :=
  (g.ids.map (fun a => (g.ids.filter (fun b => decide (b ≠ a))).length)).sum

/-- Whether a distance-map entry holds a finite value. -/
def isFin : Option (Option Nat) → Bool
  | some (some _) => true
  | _ => false

/-- The numeric value of a binary character string, most significant bit
first. -/
def bitsVal (bs : List Char) : Nat :=
  bs.foldl (fun acc c => 2 * acc + if c = '1' then 1 else 0) 0

/-- A string of binary digits. -/
def isBits (bs : List Char) : Prop := ∀ c ∈ bs, c = '0' ∨ c = '1'

/-- The invariant tying the generators' `addedEdges` set to their `edges`
array: the keys recorded are exactly the keys of the pushed edges, in
order, without repetition; with the self-loop check on, no pushed edge is a
self-loop. -/
structure AccWF (selfCheck : Bool) (acc : EdgeAcc) : Prop where
  keys : acc.addedEdges = acc.edges.map keyOf
  nodup : acc.addedEdges.Nodup
  noSelf : selfCheck = true → ∀ e ∈ acc.edges, e.source ≠ e.target

/-- The invariant of `generateMesh`'s nested loop after the first `k` cells
(in row-major order) have been visited. -/
structure MeshInv (cols k : Nat) (acc : MeshAcc) : Prop where
  counter : acc.idCounter = k
  ids : acc.nodes.map (fun nd => nd.id) = List.range k
  grid : ∀ r c, c < cols → r * cols + c < k → acc.nodeGrid r c = r * cols + c
  edgeBound : ∀ e ∈ acc.edges, e.target < e.source ∧ e.source < k
  pw : List.Pairwise (fun e₁ e₂ => ¬ sameUnordered e₁ e₂) acc.edges

/-- Node `v` holds the finite BFS distance `d` in state `s`. -/
def DistIs (s : BfsState) (v d : Nat) : Prop := s.dist v = some (some d)

/-- Node `v` still holds the `Infinity` sentinel in state `s`. -/
def Waiting (s : BfsState) (v : Nat) : Prop := s.dist v = some none

/-- The invariant `bfs` maintains: the start keeps distance 0; every finite
distance is witnessed by a walk of that exact length; finite and waiting
nodes are node ids (the start aside); a node at distance `d + 1` carries a
predecessor at distance `d` it is adjacent to; all node ids are keys;
queued nodes are finite, in nondecreasing distance order, spanning at most
two consecutive BFS levels; every finite node is within one step of every
queued level; and a finite node no longer queued has relaxed all its
neighbours. -/
structure BfsInv (adj : AdjMap) (start : Nat) (ids : List Nat) (s : BfsState) : Prop where
  start0 : s.dist start = some (some 0)
  finWalk : ∀ v d, DistIs s v d → WalkN adj start v d
  finIds : ∀ v d, DistIs s v d → v ∈ ids ∨ v = start
  waitIds : ∀ v, Waiting s v → v ∈ ids
  predOk : ∀ v d, DistIs s v (d + 1) →
    ∃ u, s.pred v = some (some u) ∧ DistIs s u d ∧ v ∈ nbrs adj u
  present : ∀ v ∈ ids, s.dist v ≠ none
  queueFin : ∀ u ∈ s.queue, ∃ d, DistIs s u d
  queueMono : List.Pairwise (fun a b => ∀ da db, DistIs s a da → DistIs s b db → da ≤ db)
    s.queue
  visBand : ∀ v dv, DistIs s v dv → ∀ u ∈ s.queue, ∀ du, DistIs s u du → dv ≤ du + 1
  relaxed : ∀ u du, DistIs s u du → u ∉ s.queue →
    ∀ v ∈ nbrs adj u, ∃ dv, DistIs s v dv ∧ dv ≤ du + 1

/-- The termination measure of the BFS loop: pending discoveries plus
pending dequeues.  It drops by exactly one per loop iteration. -/
def bfsMeasure (ids : List Nat) (s : BfsState) : Nat :=
  (ids.dedup.filter (fun v => decide (s.dist v = some none))).length + s.queue.length

/-- `generateRing` only consumes `skip` through `validSkip`, so two skips
with the same clamped value generate the same graph. -/
theorem generateRing_eq_of_clamp_eq {n : Nat} {a b : Int}
    (h : max 1 (min a (max 1 ((n : Int) / 2))) = max 1 (min b (max 1 ((n : Int) / 2)))) :
    generateRing n a = generateRing n b := by
  simp only [generateRing]
  rw [h]

/-- C7: generateTorus(4, 5) returns exactly 20 nodes with id = row*cols +
col, exactly 40 edges, and every node has degree exactly 4 (each undirected
edge counted once per endpoint). -/
theorem torus_4_5_counts_and_degrees :
    (generateTorus 4 5).nodes.length = 20 ∧
    (∀ nd ∈ (generateTorus 4 5).nodes, nd.id = nd.row.getD 0 * 5 + nd.col.getD 0) ∧
    (generateTorus 4 5).edges.length = 40 ∧
    (∀ nd ∈ (generateTorus 4 5).nodes, degree (generateTorus 4 5) nd.id = 4) := by
  decide

/-- C8: generateRing(12, 1) has 12 nodes and 12 edges (the pure cycle);
generateRing(12, 6) has 12 nodes and 18 edges: the same 12 base-cycle edges
followed by 6 skip-6 chords (each chord is its own reverse, so the second
discovery is collapsed by the canonical-pair dedup). -/
theorem ring_12_edge_counts :
    (generateRing 12 1).nodes.length = 12 ∧ (generateRing 12 1).edges.length = 12 ∧
    (generateRing 12 6).nodes.length = 12 ∧ (generateRing 12 6).edges.length = 18 ∧
    (generateRing 12 6).edges.take 12 = (generateRing 12 1).edges ∧
    (∀ e ∈ (generateRing 12 6).edges.drop 12, e.target = (e.source + 6) % 12) := by
  decide

/-- C9: generateRing(n, skip) equals generateRing on the skip clamped into
[1, max 1 (floor (n/2))]; the clamp moves an out-of-range skip to the
nearest bound and keeps an in-range skip; the non-fatal warning is signaled
exactly when the skip was adjusted (generation always proceeds and returns
a graph). -/
theorem ring_skip_clamp_behavior (n : Nat) (skip : Int) :
    generateRing n skip = generateRing n (clampSkip n skip) ∧
    1 ≤ clampSkip n skip ∧ clampSkip n skip ≤ max 1 ((n : Int) / 2) ∧
    (1 ≤ skip → skip ≤ max 1 ((n : Int) / 2) → clampSkip n skip = skip) ∧
    (skip < 1 → clampSkip n skip = 1) ∧
    (max 1 ((n : Int) / 2) < skip → clampSkip n skip = max 1 ((n : Int) / 2)) ∧
    (ringWarns n skip = true ↔ skip ≠ clampSkip n skip) := by
  refine ⟨generateRing_eq_of_clamp_eq ?_, ?_, ?_, ?_, ?_, ?_, ?_⟩
  · unfold clampSkip; omega
  · unfold clampSkip; omega
  · unfold clampSkip; omega
  · intro h1 h2; unfold clampSkip; omega
  · intro h; unfold clampSkip; omega
  · intro h; unfold clampSkip; omega
  · simp [ringWarns, clampSkip]

theorem canonKey_eq_iff {p q : Nat × Nat} :
    canonKey p = canonKey q ↔ p = q ∨ p = (q.2, q.1) := by
  simp only [canonKey, Prod.ext_iff]
  omega

theorem keyOf_eq_iff {e₁ e₂ : Edge} : keyOf e₁ = keyOf e₂ ↔ sameUnordered e₁ e₂ := by
  simp only [keyOf, sameUnordered, canonKey, Prod.ext_iff]
  omega

theorem accWF_nil (b : Bool) : AccWF b ⟨[], []⟩ := by
  refine ⟨rfl, List.nodup_nil, ?_⟩
  intro _ e he
  exact absurd he (List.not_mem_nil e)

theorem accWF_addEdgeCore {b : Bool} {acc : EdgeAcc} (h : AccWF b acc) (p : Nat × Nat) :
    AccWF b (addEdgeCore b acc p) := by
  unfold addEdgeCore
  split
  · rename_i hc
    obtain ⟨h1, h2⟩ := hc
    refine ⟨?_, ?_, ?_⟩
    · simp [h.keys, keyOf]
    · simp only [List.nodup_append, List.nodup_cons, List.nodup_nil]
      refine ⟨h.nodup, by simp, ?_⟩
      intro a ha
      simp only [List.mem_singleton]
      intro hk
      exact h1 (hk ▸ ha)
    · intro hb e he
      rcases List.mem_append.mp he with hold | hnew
      · exact h.noSelf hb e hold
      · rcases h2 with hb' | hne
        · rw [hb] at hb'; cases hb'
        · have he' : e = ⟨p.1, p.2⟩ := List.mem_singleton.mp hnew
          subst he'
          show p.1 ≠ p.2
          simp only [canonKey] at hne
          omega
  · exact h

theorem accWF_foldl {b : Bool} {acc : EdgeAcc} (h : AccWF b acc) (l : List (Nat × Nat)) :
    AccWF b (l.foldl (addEdgeCore b) acc) := by
  induction l generalizing acc with
  | nil => exact h
  | cons p l ih => exact ih (accWF_addEdgeCore h p)

/-- Every edge produced by the dedup fold comes from the candidate list. -/
theorem mem_edges_foldl {b : Bool} {l : List (Nat × Nat)} {e : Edge} :
    ∀ {acc : EdgeAcc}, e ∈ (l.foldl (addEdgeCore b) acc).edges →
      e ∈ acc.edges ∨ ∃ p ∈ l, e = ⟨p.1, p.2⟩ := by
  induction l with
  | nil => intro acc he; exact Or.inl he
  | cons p l ih =>
    intro acc he
    rcases ih he with hstep | ⟨q, hq, rfl⟩
    · unfold addEdgeCore at hstep
      split at hstep
      · rcases List.mem_append.mp hstep with hold | hnew
        · exact Or.inl hold
        · exact Or.inr ⟨p, List.mem_cons_self p l, List.mem_singleton.mp hnew⟩
      · exact Or.inl hstep
    · exact Or.inr ⟨q, List.mem_cons_of_mem p hq, rfl⟩

/-- A key is present after the dedup fold exactly when it was present
before or some candidate carries it (a self-loop candidate being refused
when the check is on). -/
theorem mem_addedEdges_foldl {b : Bool} {l : List (Nat × Nat)} {k : Nat × Nat} :
    ∀ {acc : EdgeAcc}, (k ∈ (l.foldl (addEdgeCore b) acc).addedEdges ↔
      k ∈ acc.addedEdges ∨ ∃ p ∈ l, canonKey p = k ∧ (b = true → p.1 ≠ p.2)) := by
  induction l with
  | nil => intro acc; simp
  | cons p l ih =>
    intro acc
    rw [List.foldl_cons, ih]
    have hstep : k ∈ (addEdgeCore b acc p).addedEdges ↔
        k ∈ acc.addedEdges ∨ (canonKey p = k ∧ (b = true → p.1 ≠ p.2)) := by
      unfold addEdgeCore
      split
      · rename_i hc
        simp only [List.mem_append, List.mem_singleton]
        constructor
        · rintro (h | rfl)
          · exact Or.inl h
          · refine Or.inr ⟨rfl, ?_⟩
            intro hb
            rcases hc.2 with hb' | hne
            · rw [hb] at hb'; cases hb'
            · simp only [canonKey] at hne; omega
        · rintro (h | ⟨rfl, _⟩)
          · exact Or.inl h
          · exact Or.inr rfl
      · rename_i hc
        rw [Classical.not_and_iff_or_not_not, not_not] at hc
        constructor
        · exact Or.inl
        · rintro (h | ⟨rfl, hb⟩)
          · exact h
          · rcases hc with hmem | hself
            · exact hmem
            · rcases Bool.eq_false_or_eq_true b with hb' | hb'
              · have hne := hb hb'
                refine absurd (Or.inr ?_) hself
                simp only [canonKey]
                omega
              · exact absurd (Or.inl hb') hself
    rw [hstep]
    constructor
    · rintro (( h | hp) | ⟨q, hq, hk⟩)
      · exact Or.inl h
      · exact Or.inr ⟨p, List.mem_cons_self p l, hp⟩
      · exact Or.inr ⟨q, List.mem_cons_of_mem p hq, hk⟩
    · rintro (h | ⟨q, hq, hk⟩)
      · exact Or.inl (Or.inl h)
      · rcases List.mem_cons.mp hq with rfl | hql
        · exact Or.inl (Or.inr hk)
        · exact Or.inr ⟨q, hql, hk⟩

/-- Distinct recorded keys give pairwise-distinct unordered edge pairs. -/
theorem pairwise_of_accWF {b : Bool} {acc : EdgeAcc} (h : AccWF b acc) :
    List.Pairwise (fun e₁ e₂ => ¬ sameUnordered e₁ e₂) acc.edges := by
  have hnd := h.nodup
  rw [h.keys] at hnd
  have := List.pairwise_map.mp hnd
  exact this.imp (fun hne hsame => hne (keyOf_eq_iff.mpr hsame))

theorem graphWF_ring (n : Nat) (skip : Int) : GraphWF (generateRing n skip) := by
  simp only [generateRing]
  split
  · exact ⟨rfl, by simp, List.Pairwise.nil⟩
  · rename_i hn0
    split
    · refine ⟨?_, by simp, List.Pairwise.nil⟩
      simp [Graph.ids, List.map_map, Function.comp_def]
    · rename_i hn1
      have hn : 0 < n := by omega
      rw [← List.foldl_map (fun i => ((i, (i + 1) % n) : Nat × Nat)) (addEdgeCore true)]
      rw [← List.foldl_map
        (fun i => ((i, (i + (max 1 (min skip (max 1 ((n : Int) / 2)))).toNat) % n) : Nat × Nat))
        (addEdgeCore true)]
      set s := (max 1 (min skip (max 1 ((n : Int) / 2)))).toNat with hs
      set cand1 := (List.range n).map (fun i => ((i, (i + 1) % n) : Nat × Nat)) with hc1
      set cand2 := (List.range n).map (fun i => ((i, (i + s) % n) : Nat × Nat)) with hc2
      set acc1 := cand1.foldl (addEdgeCore true) ⟨[], []⟩ with ha1
      have hacc1 : AccWF true acc1 := accWF_foldl (accWF_nil true) cand1
      have hmem1 : ∀ e ∈ acc1.edges, e.source < n ∧ e.target < n := by
        intro e he
        rcases mem_edges_foldl he with h | ⟨p, hp, rfl⟩
        · exact absurd h (List.not_mem_nil e)
        · rw [hc1] at hp
          obtain ⟨i, hi, rfl⟩ := List.mem_map.mp hp
          exact ⟨List.mem_range.mp hi, Nat.mod_lt _ hn⟩
      set accF := if 1 < max 1 (min skip (max 1 ((n : Int) / 2))) ∧ 3 ≤ n
        then cand2.foldl (addEdgeCore true) acc1 else acc1 with haF
      have haccF : AccWF true accF := by
        rw [haF]; split
        · exact accWF_foldl hacc1 cand2
        · exact hacc1
      have hmemF : ∀ e ∈ accF.edges, e.source < n ∧ e.target < n := by
        rw [haF]; split
        · intro e he
          rcases mem_edges_foldl he with h | ⟨p, hp, rfl⟩
          · exact hmem1 e h
          · rw [hc2] at hp
            obtain ⟨i, hi, rfl⟩ := List.mem_map.mp hp
            exact ⟨List.mem_range.mp hi, Nat.mod_lt _ hn⟩
        · exact hmem1
      refine ⟨?_, ?_, pairwise_of_accWF haccF⟩
      · simp [Graph.ids, List.map_map, Function.comp_def]
      · intro e he
        refine ⟨haccF.noSelf rfl e he, ?_, ?_⟩
        · simpa using (hmemF e he).1
        · simpa using (hmemF e he).2

theorem torusNodeAt_lt {rows cols : Nat} (hr : 0 < rows) (hc : 0 < cols) (r c : Nat) :
    torusNodeAt rows cols r c < rows * cols := by
  unfold torusNodeAt
  have h1 : (r + rows) % rows < rows := Nat.mod_lt _ hr
  have h2 : (c + cols) % cols < cols := Nat.mod_lt _ hc
  calc ((r + rows) % rows) * cols + (c + cols) % cols
      < ((r + rows) % rows) * cols + cols := by omega
    _ = ((r + rows) % rows + 1) * cols := by ring
    _ ≤ rows * cols := Nat.mul_le_mul_right _ (by omega)

theorem flatMap_range_rowMajor (rows cols : Nat) :
    (List.range rows).flatMap (fun r => (List.range cols).map (fun c => r * cols + c)) =
      List.range (rows * cols) := by
  induction rows with
  | zero => simp
  | succ R ih =>
    rw [List.range_succ, List.flatMap_append, ih, List.flatMap_singleton,
      Nat.succ_mul, List.range_add]

theorem graphWF_torus (rows cols : Nat) : GraphWF (generateTorus rows cols) := by
  simp only [generateTorus]
  split
  · exact ⟨rfl, by simp, List.Pairwise.nil⟩
  · rename_i hrc
    have hr : 0 < rows := by omega
    have hc : 0 < cols := by omega
    have hids : ((List.range rows).flatMap (fun r => (List.range cols).map
        (fun c => ({ id := r * cols + c, row := some r, col := some c } : Node)))).map
          (fun nd => nd.id) = List.range (rows * cols) := by
      rw [List.map_flatMap]
      simp only [List.map_map, Function.comp_def]
      exact flatMap_range_rowMajor rows cols
    have hlen : ((List.range rows).flatMap (fun r => (List.range cols).map
        (fun c => ({ id := r * cols + c, row := some r, col := some c } : Node)))).length
          = rows * cols := by
      have h := congrArg List.length hids
      rw [List.length_map, List.length_range] at h
      exact h
    have haccF : AccWF true (((List.range rows).flatMap (fun r =>
        (List.range cols).flatMap (fun c =>
          (if 1 < rows then [(torusNodeAt rows cols r c, torusNodeAt rows cols (r + 1) c)]
            else []) ++
          (if 1 < cols then [(torusNodeAt rows cols r c, torusNodeAt rows cols r (c + 1))]
            else [])))).foldl (addEdgeCore true) ⟨[], []⟩) :=
      accWF_foldl (accWF_nil true) _
    have hcand : ∀ p ∈ (List.range rows).flatMap (fun r =>
        (List.range cols).flatMap (fun c =>
          (if 1 < rows then [(torusNodeAt rows cols r c, torusNodeAt rows cols (r + 1) c)]
            else []) ++
          (if 1 < cols then [(torusNodeAt rows cols r c, torusNodeAt rows cols r (c + 1))]
            else []))), (p : Nat × Nat).1 < rows * cols ∧ p.2 < rows * cols := by
      intro p hp
      simp only [List.mem_flatMap] at hp
      obtain ⟨r, _, c, _, hp⟩ := hp
      rcases List.mem_append.mp hp with h | h
      · split at h
        · have hp' := List.mem_singleton.mp h
          subst hp'
          exact ⟨torusNodeAt_lt hr hc _ _, torusNodeAt_lt hr hc _ _⟩
        · exact absurd h (List.not_mem_nil p)
      · split at h
        · have hp' := List.mem_singleton.mp h
          subst hp'
          exact ⟨torusNodeAt_lt hr hc _ _, torusNodeAt_lt hr hc _ _⟩
        · exact absurd h (List.not_mem_nil p)
    refine ⟨?_, ?_, pairwise_of_accWF haccF⟩
    · simp only [Graph.ids]
      rw [hlen]
      exact hids
    · intro e he
      have hself := haccF.noSelf rfl e he
      rcases mem_edges_foldl he with h | ⟨p, hp, rfl⟩
      · exact absurd h (List.not_mem_nil e)
      · refine ⟨hself, ?_, ?_⟩
        · rw [hlen]
          exact (hcand p hp).1
        · rw [hlen]
          exact (hcand p hp).2

theorem rowMajor_inj {cols r c r' c' : Nat} (hc : c < cols) (hc' : c' < cols)
    (h : r * cols + c = r' * cols + c') : r = r' ∧ c = c' := by
  rcases Nat.lt_trichotomy r r' with hlt | hEq | hlt
  · exfalso
    have hmul : (r + 1) * cols ≤ r' * cols := Nat.mul_le_mul_right _ hlt
    have hs : (r + 1) * cols = r * cols + cols := Nat.succ_mul r cols
    omega
  · subst hEq
    exact ⟨rfl, by omega⟩
  · exfalso
    have hmul : (r' + 1) * cols ≤ r * cols := Nat.mul_le_mul_right _ hlt
    have hs : (r' + 1) * cols = r' * cols + cols := Nat.succ_mul r' cols
    omega

/-- `meshStep` with both grid lookups resolved: when the respective guard
holds, the looked-up cell differs from the one being written, so the lookup
reads the old grid. -/
theorem meshStep_eq (acc : MeshAcc) (r c : Nat) :
    meshStep acc r c =
      { nodes := acc.nodes ++ [{ id := acc.idCounter, row := some r, col := some c }]
        edges := acc.edges ++
          ((if 0 < c then [Edge.mk acc.idCounter (acc.nodeGrid r (c - 1))] else []) ++
           (if 0 < r then [Edge.mk acc.idCounter (acc.nodeGrid (r - 1) c)] else []))
        idCounter := acc.idCounter + 1
        nodeGrid := fun r' c' => if r' = r ∧ c' = c then acc.idCounter
          else acc.nodeGrid r' c' } := by
  unfold meshStep
  by_cases hc0 : 0 < c
  · by_cases hr0 : 0 < r
    · have h1 : ¬(r = r ∧ c - 1 = c) := by omega
      have h2 : ¬(r - 1 = r ∧ c = c) := by omega
      simp [hc0, hr0, h1, h2]
      constructor
      · intro hq
        omega
      · intro hq
        omega
    · have h1 : ¬(r = r ∧ c - 1 = c) := by omega
      simp [hc0, hr0, h1]
      intro hq
      omega
  · by_cases hr0 : 0 < r
    · have h2 : ¬(r - 1 = r ∧ c = c) := by omega
      simp [hc0, hr0, h2]
      intro hq
      omega
    · simp [hc0, hr0]

theorem meshInv_step {cols k : Nat} {acc : MeshAcc} (h : MeshInv cols k acc)
    {r c : Nat} (hc : c < cols) (hk : k = r * cols + c) :
    MeshInv cols (k + 1) (meshStep acc r c) := by
  have hcols : 0 < cols := by omega
  have hleft : 0 < c → acc.nodeGrid r (c - 1) = r * cols + (c - 1) := fun hc0 =>
    h.grid r (c - 1) (by omega) (by omega)
  have hup0 : 0 < r → (r - 1) * cols + c < k := by
    intro hr0
    have hmul : (r - 1) * cols < r * cols := (Nat.mul_lt_mul_right hcols).mpr (by omega)
    omega
  have hup : 0 < r → acc.nodeGrid (r - 1) c = (r - 1) * cols + c := fun hr0 =>
    h.grid (r - 1) c hc (hup0 hr0)
  -- every new edge has source `k` and target strictly below `k`
  have hnew : ∀ e ∈ (if 0 < c then [Edge.mk acc.idCounter (acc.nodeGrid r (c - 1))] else []) ++
      (if 0 < r then [Edge.mk acc.idCounter (acc.nodeGrid (r - 1) c)] else []),
      e.source = k ∧ e.target < k := by
    intro e he
    rcases List.mem_append.mp he with he1 | he1
    · split at he1
      · rename_i hc0
        have he2 := List.mem_singleton.mp he1
        subst he2
        refine ⟨h.counter, ?_⟩
        show acc.nodeGrid r (c - 1) < k
        rw [hleft hc0]
        omega
      · exact absurd he1 (List.not_mem_nil e)
    · split at he1
      · rename_i hr0
        have he2 := List.mem_singleton.mp he1
        subst he2
        refine ⟨h.counter, ?_⟩
        show acc.nodeGrid (r - 1) c < k
        rw [hup hr0]
        exact hup0 hr0
      · exact absurd he1 (List.not_mem_nil e)
  rw [meshStep_eq]
  constructor
  · simp [h.counter]
  · simp only [List.map_append, h.ids, h.counter, List.map_cons, List.map_nil]
    rw [List.range_succ]
  · intro r' c' hc' hlt
    simp only
    by_cases heq : r' = r ∧ c' = c
    · obtain ⟨rfl, rfl⟩ := heq
      rw [if_pos ⟨rfl, rfl⟩, h.counter, hk]
    · rw [if_neg heq]
      rcases Nat.lt_or_ge (r' * cols + c') k with hlt' | hge
      · exact h.grid r' c' hc' hlt'
      · exfalso
        have hEq : r' * cols + c' = k := by omega
        rw [hk] at hEq
        exact heq (rowMajor_inj hc' hc hEq)
  · intro e he
    simp only [List.mem_append] at he
    rcases he with he | he
    · have hb := h.edgeBound e he
      omega
    · have hb := hnew e (List.mem_append.mpr he)
      omega
  · simp only []
    rw [List.pairwise_append]
    refine ⟨h.pw, ?_, ?_⟩
    · -- among the new edges: sources agree on `k`, targets are distinct
      rw [List.pairwise_append]
      refine ⟨?_, ?_, ?_⟩
      · split
        · exact List.pairwise_singleton _ _
        · exact List.Pairwise.nil
      · split
        · exact List.pairwise_singleton _ _
        · exact List.Pairwise.nil
      · intro e1 he1 e2 he2
        split at he1
        · rename_i hc0
          split at he2
          · rename_i hr0
            have h1 := List.mem_singleton.mp he1
            have h2 := List.mem_singleton.mp he2
            subst h1
            subst h2
            have hg1 := hleft hc0
            have hg2 := hup hr0
            have hb1 := hup0 hr0
            have hneq : acc.nodeGrid r (c - 1) ≠ acc.nodeGrid (r - 1) c := by
              rw [hg1, hg2]
              intro hEq
              have := (rowMajor_inj (show c - 1 < cols by omega) hc hEq).1
              omega
            simp only [sameUnordered]
            intro hcon
            rcases hcon with ⟨_, h2'⟩ | ⟨h1', h2'⟩
            · exact hneq h2'
            · rw [hg1] at h2'
              rw [h.counter] at h1'
              omega
          · exact absurd he2 (List.not_mem_nil e2)
        · exact absurd he1 (List.not_mem_nil e1)
    · -- an old edge never forms the same unordered pair as a new one
      intro e1 he1 e2 he2
      have hold := h.edgeBound e1 he1
      have hn := hnew e2 he2
      simp only [sameUnordered]
      intro hcon
      rcases hcon with ⟨h1', _⟩ | ⟨_, h2'⟩
      · omega
      · omega

theorem meshInv_row (cols r : Nat) :
    ∀ (m c₀ : Nat) (acc : MeshAcc), c₀ + m ≤ cols → MeshInv cols (r * cols + c₀) acc →
      MeshInv cols (r * cols + c₀ + m)
        ((List.range' c₀ m).foldl (fun a c => meshStep a r c) acc)
  | 0, c₀, acc, _, h => by simpa using h
  | m + 1, c₀, acc, hm, h => by
    rw [List.range'_succ, List.foldl_cons]
    have hstep := meshInv_step h (by omega) rfl
    have hrec := meshInv_row cols r m (c₀ + 1) (meshStep acc r c₀) (by omega)
      (by rw [← Nat.add_assoc]; exact hstep)
    rw [show r * cols + c₀ + (m + 1) = r * cols + (c₀ + 1) + m by omega]
    exact hrec

theorem meshInv_all (cols : Nat) :
    ∀ (R : Nat), MeshInv cols (R * cols)
      ((List.range R).foldl (fun a r => (List.range cols).foldl (fun a c => meshStep a r c) a)
        ⟨[], [], 0, fun _ _ => 0⟩)
  | 0 => by
    rw [List.range_zero, List.foldl_nil]
    constructor
    · simp
    · simp
    · intro r c _ hlt
      omega
    · intro e he
      exact absurd he (List.not_mem_nil e)
    · exact List.Pairwise.nil
  | R + 1 => by
    rw [List.range_succ, List.foldl_append, List.foldl_cons, List.foldl_nil]
    have h := meshInv_all cols R
    have h2 := meshInv_row cols R cols 0 _ (by omega) (by simpa using h)
    rw [← List.range_eq_range'] at h2
    rw [show (R + 1) * cols = R * cols + 0 + cols by ring]
    exact h2

theorem graphWF_mesh (rows cols : Nat) : GraphWF (generateMesh rows cols) := by
  simp only [generateMesh]
  split
  · exact ⟨rfl, by simp, List.Pairwise.nil⟩
  · have h := meshInv_all cols rows
    have hlen : ((List.range rows).foldl
        (fun a r => (List.range cols).foldl (fun a c => meshStep a r c) a)
        ⟨[], [], 0, fun _ _ => 0⟩ : MeshAcc).nodes.length = rows * cols := by
      have hc := congrArg List.length h.ids
      rw [List.length_map, List.length_range] at hc
      exact hc
    refine ⟨?_, ?_, h.pw⟩
    · simp only [Graph.ids]
      rw [hlen]
      exact h.ids
    · intro e he
      have hb := h.edgeBound e he
      rw [hlen]
      omega

theorem xor_one_shiftLeft_ne (i j : Nat) : i ^^^ (1 <<< j) ≠ i := by
  intro hEq
  have h0 : i ^^^ (i ^^^ (1 <<< j)) = i ^^^ i := congrArg (fun x => i ^^^ x) hEq
  rw [← Nat.xor_assoc, Nat.xor_self, Nat.zero_xor] at h0
  have hpos : 0 < 1 <<< j := by
    rw [Nat.shiftLeft_eq, Nat.one_mul]
    exact Nat.pos_pow_of_pos j (by omega)
  omega

theorem one_shiftLeft_lt_two_pow {j d : Nat} (hj : j < d) : 1 <<< j < 2 ^ d := by
  rw [Nat.shiftLeft_eq, Nat.one_mul]
  exact Nat.pow_lt_pow_right (by omega) hj

theorem graphWF_hypercubeCore (d : Nat) : GraphWF (hypercubeCore d) := by
  simp only [hypercubeCore]
  have hids : ((List.range (2 ^ d)).map (fun i =>
      ({ id := i, binary := some (padStart d '0' (natToBinChars i)) } : Node))).map
        (fun nd => nd.id) = List.range (2 ^ d) := by
    simp [List.map_map, Function.comp_def]
  have hlen : ((List.range (2 ^ d)).map (fun i =>
      ({ id := i, binary := some (padStart d '0' (natToBinChars i)) } : Node))).length
        = 2 ^ d := by
    simp
  refine ⟨?_, ?_, ?_⟩
  · simp only [Graph.ids]
    rw [hlen]
    exact hids
  · intro e he
    simp only at he
    split at he
    · rcases mem_edges_foldl he with hnil | ⟨p, hp, rfl⟩
      · exact absurd hnil (List.not_mem_nil e)
      · simp only [List.mem_flatMap, List.mem_map, List.mem_range] at hp
        obtain ⟨i, hi, j, hj, rfl⟩ := hp
        refine ⟨?_, ?_, ?_⟩
        · show i ≠ i ^^^ (1 <<< j)
          exact fun hq => xor_one_shiftLeft_ne i j hq.symm
        · rw [hlen]
          exact hi
        · rw [hlen]
          exact Nat.xor_lt_two_pow hi (one_shiftLeft_lt_two_pow hj)
    · exact absurd he (List.not_mem_nil e)
  · split
    · exact pairwise_of_accWF (accWF_foldl (accWF_nil false) _)
    · exact List.Pairwise.nil

theorem graphWF_hypercube (dIn : Int) : GraphWF (generateHypercube dIn) :=
  graphWF_hypercubeCore _

/-- C5: for every generator and all parameter values, the node ids are
exactly the dense range 0..n-1 (in order, hence without gaps or
duplicates), every edge joins two distinct nodes of that range, and no
unordered edge pair appears twice in the edge list. -/
theorem generators_wellFormed (n : Nat) (skip : Int) (rows cols trows tcols : Nat)
    (dIn : Int) :
    GraphWF (generateRing n skip) ∧ GraphWF (generateMesh rows cols) ∧
    GraphWF (generateTorus trows tcols) ∧ GraphWF (generateHypercube dIn) :=
  ⟨graphWF_ring n skip, graphWF_mesh rows cols, graphWF_torus trows tcols,
    graphWF_hypercube dIn⟩

theorem bitsVal_append_bit (l : List Char) (c : Char) :
    bitsVal (l ++ [c]) = 2 * bitsVal l + (if c = '1' then 1 else 0) := by
  simp [bitsVal, List.foldl_append]

theorem bitsVal_binCore (i : Nat) : bitsVal (binCore i) = i := by
  induction i using Nat.strong_induction_on with
  | _ i ih =>
    unfold binCore
    split
    · rename_i h
      subst h
      decide
    · rename_i h
      rw [bitsVal_append_bit]
      rw [ih (i / 2) (Nat.div_lt_self (Nat.pos_of_ne_zero h) (by omega))]
      rcases Nat.mod_two_eq_zero_or_one i with hm | hm
      · rw [if_neg (by omega : ¬ i % 2 = 1)]
        rw [if_neg (by decide : ¬ ('0' : Char) = '1')]
        omega
      · rw [if_pos hm, if_pos rfl]
        omega

theorem bitsVal_natToBinChars (i : Nat) : bitsVal (natToBinChars i) = i := by
  unfold natToBinChars
  split
  · rename_i h
    subst h
    decide
  · exact bitsVal_binCore i

theorem bitsVal_cons_zero (t : List Char) : bitsVal ('0' :: t) = bitsVal t := by
  simp [bitsVal]

theorem bitsVal_replicate_append (k : Nat) (s : List Char) :
    bitsVal (List.replicate k '0' ++ s) = bitsVal s := by
  induction k with
  | zero => simp
  | succ k ih =>
    rw [List.replicate_succ, List.cons_append, bitsVal_cons_zero]
    exact ih

theorem bitsVal_padStart (d : Nat) (s : List Char) :
    bitsVal (padStart d '0' s) = bitsVal s := bitsVal_replicate_append _ _

theorem binCore_length_le (d : Nat) : ∀ i, i < 2 ^ d → (binCore i).length ≤ d := by
  induction d with
  | zero =>
    intro i h
    have h0 : i = 0 := by
      simp only [Nat.pow_zero] at h
      omega
    subst h0
    unfold binCore
    simp
  | succ d ih =>
    intro i h
    unfold binCore
    split
    · simp
    · rename_i hne
      rw [List.length_append, List.length_singleton]
      have hi2 : i / 2 < 2 ^ d := by
        have h2 : (2 : Nat) ^ (d + 1) = 2 ^ d * 2 := by
          rw [Nat.pow_succ]
        omega
      have := ih (i / 2) hi2
      omega

theorem natToBinChars_length_le {d i : Nat} (hd : 1 ≤ d) (hi : i < 2 ^ d) :
    (natToBinChars i).length ≤ d := by
  unfold natToBinChars
  split
  · simpa using hd
  · exact binCore_length_le d i hi

theorem padStart_length {d : Nat} {s : List Char} (h : s.length ≤ d) (f : Char) :
    (padStart d f s).length = d := by
  simp only [padStart, List.length_append, List.length_replicate]
  omega

theorem isBits_binCore (i : Nat) : isBits (binCore i) := by
  induction i using Nat.strong_induction_on with
  | _ i ih =>
    unfold binCore
    split
    · intro c hc
      exact absurd hc (List.not_mem_nil c)
    · rename_i h
      intro c hc
      rcases List.mem_append.mp hc with h1 | h1
      · exact ih (i / 2) (Nat.div_lt_self (Nat.pos_of_ne_zero h) (by omega)) c h1
      · have hc' := List.mem_singleton.mp h1
        subst hc'
        split
        · exact Or.inr rfl
        · exact Or.inl rfl

theorem isBits_natToBinChars (i : Nat) : isBits (natToBinChars i) := by
  unfold natToBinChars
  split
  · intro c hc
    have := List.mem_singleton.mp hc
    subst this
    exact Or.inl rfl
  · exact isBits_binCore i

theorem isBits_padStart (d : Nat) {s : List Char} (h : isBits s) :
    isBits (padStart d '0' s) := by
  intro c hc
  rcases List.mem_append.mp hc with h1 | h1
  · exact Or.inl (List.eq_of_mem_replicate h1)
  · exact h c h1

theorem hypercubeCore_ids (d : Nat) : (hypercubeCore d).ids = List.range (2 ^ d) := by
  simp [hypercubeCore, Graph.ids, List.map_map, Function.comp_def]

theorem hypercubeCore_binary (d : Nat) :
    ∀ nd ∈ (hypercubeCore d).nodes, ∃ bs, nd.binary = some bs ∧ isBits bs ∧
      bitsVal bs = nd.id ∧ (1 ≤ d → bs.length = d) ∧ (d = 0 → bs = ['0']) := by
  intro nd hnd
  simp only [hypercubeCore, List.mem_map, List.mem_range] at hnd
  obtain ⟨i, hi, rfl⟩ := hnd
  refine ⟨padStart d '0' (natToBinChars i), rfl, ?_, ?_, ?_, ?_⟩
  · exact isBits_padStart d (isBits_natToBinChars i)
  · show bitsVal (padStart d '0' (natToBinChars i)) = i
    rw [bitsVal_padStart, bitsVal_natToBinChars]
  · intro hd
    exact padStart_length (natToBinChars_length_le hd hi) '0'
  · intro hd
    subst hd
    have h0 : i = 0 := by
      simp only [Nat.pow_zero] at hi
      omega
    subst h0
    decide

theorem hypercubeCore_edges_sound (d : Nat) :
    ∀ e ∈ (hypercubeCore d).edges, e.source < 2 ^ d ∧
      ∃ j, j < d ∧ e.target = e.source ^^^ (1 <<< j) := by
  intro e he
  simp only [hypercubeCore] at he
  split at he
  · rcases mem_edges_foldl he with h | ⟨p, hp, rfl⟩
    · exact absurd h (List.not_mem_nil e)
    · simp only [List.mem_flatMap, List.mem_map, List.mem_range] at hp
      obtain ⟨i, hi, j, hj, rfl⟩ := hp
      exact ⟨hi, j, hj, rfl⟩
  · exact absurd he (List.not_mem_nil e)

theorem hypercubeCore_edges_complete (d : Nat) :
    ∀ i < 2 ^ d, ∀ j < d, ∃ e ∈ (hypercubeCore d).edges,
      sameUnordered e ⟨i, i ^^^ (1 <<< j)⟩ := by
  intro i hi j hj
  have hd : 0 < d := by omega
  simp only [hypercubeCore, if_pos hd]
  have hcand : ((i, i ^^^ (1 <<< j)) : Nat × Nat) ∈ (List.range (2 ^ d)).flatMap (fun i =>
      (List.range d).map (fun j => ((i, i ^^^ (1 <<< j)) : Nat × Nat))) := by
    simp only [List.mem_flatMap, List.mem_map, List.mem_range]
    exact ⟨i, hi, j, hj, rfl⟩
  have hkey : canonKey (i, i ^^^ (1 <<< j)) ∈
      (((List.range (2 ^ d)).flatMap (fun i =>
        (List.range d).map (fun j => ((i, i ^^^ (1 <<< j)) : Nat × Nat)))).foldl
          (addEdgeCore false) ⟨[], []⟩).addedEdges := by
    rw [mem_addedEdges_foldl]
    right
    refine ⟨(i, i ^^^ (1 <<< j)), hcand, rfl, ?_⟩
    intro h
    cases h
  have hwf := accWF_foldl (accWF_nil false) ((List.range (2 ^ d)).flatMap (fun i =>
    (List.range d).map (fun j => ((i, i ^^^ (1 <<< j)) : Nat × Nat))))
  rw [hwf.keys] at hkey
  obtain ⟨e, he, hke⟩ := List.mem_map.mp hkey
  exact ⟨e, he, keyOf_eq_iff.mp hke⟩

/-- C6 counterexample: at dimension 0 the claim's binary clause fails on
the only node — its `binary` is the one-character string "0", not the 0-bit
(empty) zero-padded binary string of its id. -/
theorem hypercube_zero_binary_counterexample :
    ((generateHypercube 0).nodes.all
      (fun nd => (nd.binary.getD []).length == clampDim 0)) = false := by
  decide

/-- C6 (amended): generateHypercube(d) behaves as hypercubeCore on the
clamped dimension d' in [0, 10]; the graph has node ids exactly 0..2^d'-1;
for d' >= 1 every node's binary field is the d'-bit zero-padded binary
string of its id (a digit string of length d' whose value is the id), while
for d' = 0 the single node's binary field is the one-character string "0";
the edges are exactly the unordered pairs (i, i xor 2^j) for bit positions
j < d', each listed once; generateHypercube(3) has 8 nodes, 12 edges and
3-character binary strings throughout, and generateHypercube(0) has a
single node and no edges. -/
theorem hypercube_spec (dIn : Int) :
    generateHypercube dIn = hypercubeCore (clampDim dIn) ∧
    clampDim dIn ≤ 10 ∧
    (hypercubeCore (clampDim dIn)).ids = List.range (2 ^ clampDim dIn) ∧
    (∀ nd ∈ (hypercubeCore (clampDim dIn)).nodes, ∃ bs, nd.binary = some bs ∧
      isBits bs ∧ bitsVal bs = nd.id ∧
      (1 ≤ clampDim dIn → bs.length = clampDim dIn) ∧
      (clampDim dIn = 0 → bs = ['0'])) ∧
    (∀ e ∈ (hypercubeCore (clampDim dIn)).edges, e.source < 2 ^ clampDim dIn ∧
      ∃ j, j < clampDim dIn ∧ e.target = e.source ^^^ (1 <<< j)) ∧
    (∀ i < 2 ^ clampDim dIn, ∀ j < clampDim dIn,
      ∃ e ∈ (hypercubeCore (clampDim dIn)).edges,
        sameUnordered e ⟨i, i ^^^ (1 <<< j)⟩) ∧
    List.Pairwise (fun e₁ e₂ => ¬ sameUnordered e₁ e₂)
      (hypercubeCore (clampDim dIn)).edges ∧
    (generateHypercube 3).nodes.length = 8 ∧ (generateHypercube 3).edges.length = 12 ∧
    (∀ nd ∈ (generateHypercube 3).nodes, (nd.binary.getD []).length = 3) ∧
    (generateHypercube 0).nodes.length = 1 ∧ (generateHypercube 0).edges = [] := by
  refine ⟨rfl, ?_, hypercubeCore_ids _, hypercubeCore_binary _,
    hypercubeCore_edges_sound _, hypercubeCore_edges_complete _, ?_, ?_, ?_, ?_, ?_, ?_⟩
  · simp only [clampDim]
    omega
  · have h := (graphWF_hypercubeCore (clampDim dIn)).2.2
    exact h
  · decide
  · decide
  · intro nd hnd
    obtain ⟨bs, hbs, _, _, hlen, _⟩ := hypercubeCore_binary (clampDim 3) nd hnd
    rw [hbs]
    have hc3 : clampDim 3 = 3 := by decide
    show bs.length = 3
    rw [← hc3]
    exact hlen (by rw [hc3]; omega)
  · decide
  · decide

theorem adjPush_none (m : AdjMap) (k v a : Nat) :
    adjPush m k v a = none ↔ m a = none := by
  simp only [adjPush]
  split
  · rename_i h
    subst h
    simp [Option.map_eq_none']
  · exact Iff.rfl

theorem buildAdj_none (g : Graph) (a : Nat) : buildAdj g a = none ↔ a ∉ g.ids := by
  have base : ∀ a, (fun a => if a ∈ g.ids then (some [] : Option (List Nat)) else none) a = none
      ↔ a ∉ g.ids := by
    intro a
    show (if a ∈ g.ids then (some [] : Option (List Nat)) else none) = none ↔ a ∉ g.ids
    split
    · rename_i h
      simp [h]
    · rename_i h
      simp [h]
  suffices h : ∀ (es : List Edge) (m : AdjMap), (∀ a, m a = none ↔ a ∉ g.ids) →
      ∀ a, (es.foldl (fun m e => adjPush (adjPush m e.source e.target) e.target e.source) m) a
        = none ↔ a ∉ g.ids by
    exact h g.edges _ base a
  intro es
  induction es with
  | nil => exact fun m hm a => hm a
  | cons e es ih =>
    intro m hm a
    refine ih _ ?_ a
    intro b
    rw [adjPush_none, adjPush_none]
    exact hm b

theorem mem_nbrs_adjPush (m : AdjMap) (k v a b : Nat) :
    b ∈ nbrs (adjPush m k v) a ↔ b ∈ nbrs m a ∨ (a = k ∧ b = v ∧ m k ≠ none) := by
  simp only [nbrs, adjPush]
  split
  · rename_i h
    subst h
    cases hm : m a
    · simp [hm]
    · rename_i l
      simp [hm, List.mem_append]
  · rename_i h
    simp [h]

theorem mem_nbrs_buildAdj (g : Graph) (hv : validEdges g) (a b : Nat) :
    b ∈ nbrs (buildAdj g) a ↔
      a ∈ g.ids ∧ ∃ e ∈ g.edges,
        (e.source = a ∧ e.target = b) ∨ (e.target = a ∧ e.source = b) := by
  by_cases ha : a ∈ g.ids
  · suffices h : ∀ (es : List Edge) (m : AdjMap),
        (∀ c, m c = none ↔ c ∉ g.ids) →
        (∀ e ∈ es, e.source ∈ g.ids ∧ e.target ∈ g.ids) →
        (b ∈ nbrs (es.foldl (fun m e => adjPush (adjPush m e.source e.target) e.target e.source)
            m) a ↔
          b ∈ nbrs m a ∨ ∃ e ∈ es,
            (e.source = a ∧ e.target = b) ∨ (e.target = a ∧ e.source = b)) by
      have base : ∀ c, (fun c => if c ∈ g.ids then (some [] : Option (List Nat)) else none) c
          = none ↔ c ∉ g.ids := by
        intro c
        show (if c ∈ g.ids then (some [] : Option (List Nat)) else none) = none ↔ c ∉ g.ids
        split
        · rename_i hc
          simp [hc]
        · rename_i hc
          simp [hc]
      have hbase : b ∈ nbrs (fun c => if c ∈ g.ids then (some [] : Option (List Nat)) else none)
          a ↔ False := by
        show b ∈ ((if a ∈ g.ids then (some [] : Option (List Nat)) else none).getD []) ↔ False
        split
        · simp
        · simp
      rw [buildAdj]
      rw [h g.edges _ base hv, hbase]
      simp [ha]
    intro es
    induction es with
    | nil =>
      intro m _ _
      simp
    | cons e es ih =>
      intro m hm hval
      rw [List.foldl_cons]
      rw [ih _ ?_ (fun e' he' => hval e' (List.mem_cons_of_mem e he'))]
      · have hstep : b ∈ nbrs (adjPush (adjPush m e.source e.target) e.target e.source) a ↔
            b ∈ nbrs m a ∨ (e.source = a ∧ e.target = b) ∨ (e.target = a ∧ e.source = b) := by
          rw [mem_nbrs_adjPush, mem_nbrs_adjPush]
          have hpres : adjPush m e.source e.target e.target ≠ none := by
            rw [Ne, adjPush_none, hm]
            simp [(hval e (List.mem_cons_self e es)).2]
          have hpres2 : m e.source ≠ none := by
            rw [Ne, hm]
            simp [(hval e (List.mem_cons_self e es)).1]
          constructor
          · rintro ((h1 | ⟨h1, h2, _⟩) | ⟨h1, h2, _⟩)
            · exact Or.inl h1
            · exact Or.inr (Or.inl ⟨h1.symm, h2.symm⟩)
            · exact Or.inr (Or.inr ⟨h1.symm, h2.symm⟩)
          · rintro (h1 | ⟨h1, h2⟩ | ⟨h1, h2⟩)
            · exact Or.inl (Or.inl h1)
            · exact Or.inl (Or.inr ⟨h1.symm, h2.symm, hpres2⟩)
            · exact Or.inr ⟨h1.symm, h2.symm, hpres⟩
        rw [hstep]
        constructor
        · rintro ((h1 | h2) | ⟨e', he', h3⟩)
          · exact Or.inl h1
          · exact Or.inr ⟨e, List.mem_cons_self e es, h2⟩
          · exact Or.inr ⟨e', List.mem_cons_of_mem e he', h3⟩
        · rintro (h1 | ⟨e', he', h3⟩)
          · exact Or.inl (Or.inl h1)
          · rcases List.mem_cons.mp he' with rfl | he''
            · exact Or.inl (Or.inr h3)
            · exact Or.inr ⟨e', he'', h3⟩
      · intro c
        rw [adjPush_none, adjPush_none]
        exact hm c
  · constructor
    · intro h
      exfalso
      have hnone : buildAdj g a = none := (buildAdj_none g a).mpr ha
      simp only [nbrs, hnone, Option.getD_none] at h
      exact absurd h (List.not_mem_nil b)
    · rintro ⟨h1, _⟩
      exact absurd h1 ha

theorem buildAdj_symm (g : Graph) (hv : validEdges g) (u v : Nat) :
    v ∈ nbrs (buildAdj g) u ↔ u ∈ nbrs (buildAdj g) v := by
  rw [mem_nbrs_buildAdj g hv u v, mem_nbrs_buildAdj g hv v u]
  constructor
  · rintro ⟨hu, e, he, hcase⟩
    refine ⟨?_, e, he, ?_⟩
    · rcases hcase with ⟨_, h2⟩ | ⟨_, h2⟩
      · exact h2 ▸ (hv e he).2
      · exact h2 ▸ (hv e he).1
    · rcases hcase with ⟨h1, h2⟩ | ⟨h1, h2⟩
      · exact Or.inr ⟨h2, h1⟩
      · exact Or.inl ⟨h2, h1⟩
  · rintro ⟨hu, e, he, hcase⟩
    refine ⟨?_, e, he, ?_⟩
    · rcases hcase with ⟨_, h2⟩ | ⟨_, h2⟩
      · exact h2 ▸ (hv e he).2
      · exact h2 ▸ (hv e he).1
    · rcases hcase with ⟨h1, h2⟩ | ⟨h1, h2⟩
      · exact Or.inr ⟨h2, h1⟩
      · exact Or.inl ⟨h2, h1⟩

theorem nbrs_buildAdj_closed (g : Graph) (hv : validEdges g) :
    ∀ u v, v ∈ nbrs (buildAdj g) u → v ∈ g.ids := by
  intro u v h
  rw [mem_nbrs_buildAdj g hv] at h
  obtain ⟨_, e, he, hcase⟩ := h
  rcases hcase with ⟨_, h2⟩ | ⟨_, h2⟩
  · exact h2 ▸ (hv e he).2
  · exact h2 ▸ (hv e he).1

theorem mapSet_self (m : JsMap) (k : Nat) (x : Option Nat) : mapSet m k x k = some x := by
  simp [mapSet]

theorem mapSet_ne (m : JsMap) {k a : Nat} (x : Option Nat) (h : a ≠ k) :
    mapSet m k x a = m a := by
  simp [mapSet, h]

/-- What folding the neighbour loop of a dequeued node `u₀` at finite
distance `du₀` does: some list `news` of previously waiting neighbours (each
listed once) gets distance `du₀ + 1` and predecessor `u₀` and is appended to
the queue; everything else is untouched. -/
theorem bfsVisit_foldl_spec (u₀ du₀ : Nat) :
    ∀ (ns : List Nat) (s : BfsState), s.dist u₀ = some (some du₀) →
      ∃ news : List Nat,
        ((ns.foldl (bfsVisit u₀) s).dist =
          fun w => if w ∈ news then some (some (du₀ + 1)) else s.dist w) ∧
        ((ns.foldl (bfsVisit u₀) s).pred =
          fun w => if w ∈ news then some (some u₀) else s.pred w) ∧
        (ns.foldl (bfsVisit u₀) s).queue = s.queue ++ news ∧
        news.Nodup ∧
        (∀ w, w ∈ news ↔ (s.dist w = some none ∧ w ∈ ns)) := by
  intro ns
  induction ns with
  | nil =>
    intro s hu
    refine ⟨[], ?_, ?_, by simp, List.nodup_nil, ?_⟩
    · funext w
      simp
    · funext w
      simp
    · intro w
      simp
  | cons v ns ih =>
    intro s hu
    obtain ⟨sd, sp, sq⟩ := s
    simp only [BfsState.mk.injEq] at hu ⊢
    rw [List.foldl_cons]
    by_cases hv : sd v = some none
    · have hne : v ≠ u₀ := by
        intro h
        rw [h, hu] at hv
        cases hv
      have hvisit : bfsVisit u₀ ⟨sd, sp, sq⟩ v =
          ⟨mapSet sd v (some (du₀ + 1)), mapSet sp v (some u₀), sq ++ [v]⟩ := by
        show (if sd v = some none then _ else _) = _
        rw [if_pos hv]
        show BfsState.mk (mapSet sd v (jsSucc (sd u₀))) (mapSet sp v (some u₀)) (sq ++ [v]) = _
        rw [hu]
        rfl
      rw [hvisit]
      have hu' : (BfsState.mk (mapSet sd v (some (du₀ + 1))) (mapSet sp v (some u₀))
          (sq ++ [v])).dist u₀ = some (some du₀) := by
        show mapSet sd v (some (du₀ + 1)) u₀ = some (some du₀)
        rw [mapSet_ne _ _ (fun h => hne h.symm)]
        exact hu
      obtain ⟨news, hdist, hpred, hqueue, hnodup, hiff⟩ := ih _ hu'
      have hvnotin : v ∉ news := by
        intro hvin
        have h1 := ((hiff v).mp hvin).1
        rw [show (BfsState.mk (mapSet sd v (some (du₀ + 1))) (mapSet sp v (some u₀))
          (sq ++ [v])).dist = mapSet sd v (some (du₀ + 1)) from rfl, mapSet_self] at h1
        cases h1
      refine ⟨v :: news, ?_, ?_, ?_, ?_, ?_⟩
      · rw [hdist]
        funext w
        by_cases hwn : w ∈ news
        · rw [if_pos hwn, if_pos (List.mem_cons_of_mem v hwn)]
        · by_cases hwv : w = v
          · subst hwv
            rw [if_neg hwn, if_pos (List.mem_cons_self _ news)]
            show mapSet sd w (some (du₀ + 1)) w = some (some (du₀ + 1))
            rw [mapSet_self]
          · rw [if_neg hwn, if_neg (by
              intro hmem
              rcases List.mem_cons.mp hmem with h | h
              · exact hwv h
              · exact hwn h)]
            show mapSet sd v (some (du₀ + 1)) w = sd w
            rw [mapSet_ne _ _ hwv]
      · rw [hpred]
        funext w
        by_cases hwn : w ∈ news
        · rw [if_pos hwn, if_pos (List.mem_cons_of_mem v hwn)]
        · by_cases hwv : w = v
          · subst hwv
            rw [if_neg hwn, if_pos (List.mem_cons_self _ news)]
            show mapSet sp w (some u₀) w = some (some u₀)
            rw [mapSet_self]
          · rw [if_neg hwn, if_neg (by
              intro hmem
              rcases List.mem_cons.mp hmem with h | h
              · exact hwv h
              · exact hwn h)]
            show mapSet sp v (some u₀) w = sp w
            rw [mapSet_ne _ _ hwv]
      · rw [hqueue]
        show (sq ++ [v]) ++ news = sq ++ (v :: news)
        rw [List.append_assoc, List.singleton_append]
      · exact List.nodup_cons.mpr ⟨hvnotin, hnodup⟩
      · intro w
        rw [List.mem_cons]
        constructor
        · rintro (rfl | hwn)
          · exact ⟨hv, List.mem_cons_self w ns⟩
          · obtain ⟨h1, h2⟩ := (hiff w).mp hwn
            have hwv : w ≠ v := fun h => hvnotin (h ▸ hwn)
            rw [show (BfsState.mk (mapSet sd v (some (du₀ + 1))) (mapSet sp v (some u₀))
              (sq ++ [v])).dist = mapSet sd v (some (du₀ + 1)) from rfl,
              mapSet_ne _ _ hwv] at h1
            exact ⟨h1, List.mem_cons_of_mem v h2⟩
        · rintro ⟨h1, h2⟩
          rcases List.mem_cons.mp h2 with rfl | h2'
          · exact Or.inl rfl
          · by_cases hwv : w = v
            · exact Or.inl hwv
            · refine Or.inr ((hiff w).mpr ⟨?_, h2'⟩)
              rw [show (BfsState.mk (mapSet sd v (some (du₀ + 1))) (mapSet sp v (some u₀))
                (sq ++ [v])).dist = mapSet sd v (some (du₀ + 1)) from rfl,
                mapSet_ne _ _ hwv]
              exact h1
    · have hvisit : bfsVisit u₀ ⟨sd, sp, sq⟩ v = ⟨sd, sp, sq⟩ := by
        show (if sd v = some none then _ else _) = _
        rw [if_neg hv]
      rw [hvisit]
      obtain ⟨news, hdist, hpred, hqueue, hnodup, hiff⟩ := ih ⟨sd, sp, sq⟩ hu
      refine ⟨news, hdist, hpred, hqueue, hnodup, ?_⟩
      intro w
      rw [hiff w]
      constructor
      · rintro ⟨h1, h2⟩
        exact ⟨h1, List.mem_cons_of_mem v h2⟩
      · rintro ⟨h1, h2⟩
        rcases List.mem_cons.mp h2 with rfl | h2'
        · exact absurd h1 hv
        · exact ⟨h1, h2'⟩

theorem pairwise_of_all {R : Nat → Nat → Prop} :
    ∀ {l : List Nat}, (∀ a ∈ l, ∀ b ∈ l, R a b) → List.Pairwise R l
  | [], _ => List.Pairwise.nil
  | a :: l, h => List.Pairwise.cons
      (fun b hb => h a (List.mem_cons_self a l) b (List.mem_cons_of_mem a hb))
      (pairwise_of_all (fun x hx y hy =>
        h x (List.mem_cons_of_mem a hx) y (List.mem_cons_of_mem a hy)))

/-- Flipping one satisfied element of a duplicate-free list off the
predicate drops the filter length by one. -/
theorem filter_length_flip_one (p q : Nat → Bool) :
    ∀ (l : List Nat), l.Nodup → ∀ a, a ∈ l → (∀ b, b ≠ a → p b = q b) → p a = false →
      q a = true → (l.filter p).length + 1 = (l.filter q).length := by
  intro l
  induction l with
  | nil =>
    intro _ a ha
    cases ha
  | cons x l ih =>
    intro hl a ha hpq hpa hqa
    have hx := List.nodup_cons.mp hl
    rcases List.mem_cons.mp ha with rfl | hal
    · rw [List.filter_cons, List.filter_cons, hpa, hqa]
      have hcongr : l.filter p = l.filter q := by
        apply List.filter_congr
        intro b hb
        exact hpq b (fun h => hx.1 (h ▸ hb))
      rw [hcongr]
      simp
    · have hxa : x ≠ a := fun h => hx.1 (h ▸ hal)
      rw [List.filter_cons, List.filter_cons, hpq x hxa]
      cases hqx : q x
      · simp only [Bool.false_eq_true, if_false]
        exact ih hx.2 a hal hpq hpa hqa
      · simp only [if_true, List.length_cons]
        have := ih hx.2 a hal hpq hpa hqa
        omega

/-- Marking a duplicate-free batch of waiting node ids finite drops the
waiting count by the batch size. -/
theorem waiting_filter_drop (ids : List Nat) (X : Option (Option Nat)) (hX : X ≠ some none) :
    ∀ (news : List Nat) (dist : JsMap), news.Nodup →
      (∀ v ∈ news, dist v = some none ∧ v ∈ ids.dedup) →
      ((ids.dedup).filter
          (fun v => decide ((if v ∈ news then X else dist v) = some none))).length
          + news.length
        = ((ids.dedup).filter (fun v => decide (dist v = some none))).length := by
  intro news
  induction news with
  | nil =>
    intro dist _ _
    rw [List.length_nil, Nat.add_zero]
    have hcongr : ((ids.dedup).filter
        (fun v => decide ((if v ∈ ([] : List Nat) then X else dist v) = some none)))
        = ((ids.dedup).filter (fun v => decide (dist v = some none))) := by
      apply List.filter_congr
      intro b _
      simp
    rw [hcongr]
  | cons n rest ih =>
    intro dist hnd hmem
    have hn := hmem n (List.mem_cons_self n rest)
    have hstep : ((ids.dedup).filter
        (fun v => decide ((if v ∈ n :: rest then X else dist v) = some none))).length
        = ((ids.dedup).filter (fun v => decide ((if v ∈ rest then X
            else (fun w => if w = n then X else dist w) v) = some none))).length := by
      congr 1
      apply List.filter_congr
      intro b _
      have hpt : (if b ∈ n :: rest then X else dist b)
          = (if b ∈ rest then X else if b = n then X else dist b) := by
        by_cases hb1 : b ∈ rest
        · rw [if_pos hb1, if_pos (List.mem_cons_of_mem n hb1)]
        · by_cases hb2 : b = n
          · subst hb2
            rw [if_pos (List.mem_cons_self b rest), if_neg hb1, if_pos rfl]
          · rw [if_neg hb1, if_neg hb2, if_neg (by
              intro hmem'
              rcases List.mem_cons.mp hmem' with h | h
              · exact hb2 h
              · exact hb1 h)]
      rw [hpt]
    rw [hstep]
    have hrec := ih (fun w => if w = n then X else dist w) (List.nodup_cons.mp hnd).2 ?_
    · have hflip : ((ids.dedup).filter
          (fun v => decide ((fun w => if w = n then X else dist w) v = some none))).length + 1
          = ((ids.dedup).filter (fun v => decide (dist v = some none))).length := by
        apply filter_length_flip_one _ _ ids.dedup (List.nodup_dedup ids) n hn.2
        · intro b hb
          simp [if_neg hb]
        · simp [hX]
        · simp [hn.1]
      rw [List.length_cons]
      omega
    · intro v hv
      have hvn : v ≠ n := fun h => (List.nodup_cons.mp hnd).1 (h ▸ hv)
      have hmv := hmem v (List.mem_cons_of_mem n hv)
      show (if v = n then X else dist v) = some none ∧ v ∈ ids.dedup
      rw [if_neg hvn]
      exact hmv

theorem bfsInv_init (adj : AdjMap) (start : Nat) (ids : List Nat) :
    BfsInv adj start ids
      ⟨mapSet (fun v => if v ∈ ids then some none else none) start (some 0),
       (fun v => if v ∈ ids then some none else none), [start]⟩ := by
  have hdist : ∀ v d, mapSet (fun v => if v ∈ ids then some none else none) start (some 0) v
      = some (some d) → v = start ∧ d = 0 := by
    intro v d h
    by_cases hv : v = start
    · refine ⟨hv, ?_⟩
      rw [hv, mapSet_self] at h
      cases h
      rfl
    · rw [mapSet_ne _ _ hv] at h
      split at h
      · cases h
      · cases h
  constructor
  · show mapSet (fun v => if v ∈ ids then some none else none) start (some 0) start
      = some (some 0)
    exact mapSet_self _ _ _
  · intro v d h
    obtain ⟨rfl, rfl⟩ := hdist v d h
    exact WalkN.refl
  · intro v d h
    exact Or.inr (hdist v d h).1
  · intro v h
    have h' : mapSet (fun v => if v ∈ ids then some none else none) start (some 0) v
        = some none := h
    by_cases hv : v = start
    · rw [hv, mapSet_self] at h'
      cases h'
    · rw [mapSet_ne _ _ hv] at h'
      split at h'
      · assumption
      · cases h'
  · intro v d h
    obtain ⟨rfl, h0⟩ := hdist v (d + 1) h
    cases h0
  · intro v hv
    show mapSet (fun v => if v ∈ ids then some none else none) start (some 0) v ≠ none
    by_cases hvs : v = start
    · rw [hvs, mapSet_self]
      intro h
      cases h
    · rw [mapSet_ne _ _ hvs, if_pos hv]
      intro h
      cases h
  · intro u hu
    have h1 := List.mem_singleton.mp hu
    refine ⟨0, ?_⟩
    show mapSet (fun v => if v ∈ ids then some none else none) start (some 0) u
      = some (some 0)
    rw [h1, mapSet_self]
  · exact List.pairwise_singleton _ _
  · intro v dv hfin u hu du hdu
    obtain ⟨_, rfl⟩ := hdist v dv hfin
    omega
  · intro u du hfin hnq v hv
    obtain ⟨hus, _⟩ := hdist u du hfin
    exact absurd (List.mem_singleton.mpr hus) hnq

/-- One dequeue step of the BFS loop preserves the invariant and decreases
the measure by exactly one. -/
theorem bfsInv_step {adj : AdjMap} {start : Nat} {ids : List Nat}
    (hclosed : ∀ u v, v ∈ nbrs adj u → v ∈ ids) {s : BfsState}
    (h : BfsInv adj start ids s) {u₀ : Nat} {rest : List Nat} (hq : s.queue = u₀ :: rest) :
    BfsInv adj start ids ((nbrs adj u₀).foldl (bfsVisit u₀) { s with queue := rest }) ∧
    bfsMeasure ids ((nbrs adj u₀).foldl (bfsVisit u₀) { s with queue := rest }) + 1
      = bfsMeasure ids s := by
  have hu₀q : u₀ ∈ s.queue := by
    rw [hq]
    exact List.mem_cons_self u₀ rest
  obtain ⟨du₀, hdu₀⟩ := h.queueFin u₀ hu₀q
  have hu' : ({ s with queue := rest } : BfsState).dist u₀ = some (some du₀) := hdu₀
  obtain ⟨news, hdist, hpred, hqueue, hnodup, hiff⟩ :=
    bfsVisit_foldl_spec u₀ du₀ (nbrs adj u₀) { s with queue := rest } hu'
  set t := (nbrs adj u₀).foldl (bfsVisit u₀) ({ s with queue := rest } : BfsState) with ht
  have hdistw : ∀ w, t.dist w = if w ∈ news then some (some (du₀ + 1)) else s.dist w :=
    fun w => congrFun hdist w
  have hpredw : ∀ w, t.pred w = if w ∈ news then some (some u₀) else s.pred w :=
    fun w => congrFun hpred w
  have hqueue' : t.queue = rest ++ news := hqueue
  have hnews : ∀ v ∈ news, s.dist v = some none ∧ v ∈ nbrs adj u₀ :=
    fun v hv => (hiff v).mp hv
  have hfin_news : ∀ v ∈ news, t.dist v = some (some (du₀ + 1)) := by
    intro v hv
    rw [hdistw v, if_pos hv]
  have hfin_old : ∀ v, v ∉ news → t.dist v = s.dist v := by
    intro v hv
    rw [hdistw v, if_neg hv]
  have hsfin_not_news : ∀ v d, DistIs s v d → v ∉ news := by
    intro v d hd hv
    rw [DistIs, (hnews v hv).1] at hd
    cases hd
  have hmono_head : ∀ u ∈ rest, ∀ du, DistIs s u du → du₀ ≤ du := by
    intro u hu du hdu
    have hp := h.queueMono
    rw [hq, List.pairwise_cons] at hp
    exact hp.1 u hu du₀ du hdu₀ hdu
  have hrest_sfin : ∀ u ∈ rest, ∃ d, DistIs s u d := by
    intro u hu
    exact h.queueFin u (by rw [hq]; exact List.mem_cons_of_mem u₀ hu)
  have hfinT_cases : ∀ v d, DistIs t v d →
      (v ∈ news ∧ d = du₀ + 1) ∨ (v ∉ news ∧ DistIs s v d) := by
    intro v d hd
    by_cases hv : v ∈ news
    · left
      refine ⟨hv, ?_⟩
      rw [DistIs, hfin_news v hv] at hd
      cases hd
      rfl
    · right
      refine ⟨hv, ?_⟩
      rw [DistIs, hfin_old v hv] at hd
      exact hd
  have hfinS_to_T : ∀ v d, DistIs s v d → DistIs t v d := by
    intro v d hd
    rw [DistIs, hfin_old v (hsfin_not_news v d hd)]
    exact hd
  refine ⟨?_, ?_⟩
  · constructor
    · -- start0
      have := hfinS_to_T start 0 h.start0
      exact this
    · -- finWalk
      intro v d hd
      rcases hfinT_cases v d hd with ⟨hv, rfl⟩ | ⟨_, hd'⟩
      · exact WalkN.step (h.finWalk u₀ du₀ hdu₀) (hnews v hv).2
      · exact h.finWalk v d hd'
    · -- finIds
      intro v d hd
      rcases hfinT_cases v d hd with ⟨hv, _⟩ | ⟨_, hd'⟩
      · exact Or.inl (h.waitIds v (hnews v hv).1)
      · exact h.finIds v d hd'
    · -- waitIds
      intro v hv
      rw [Waiting, hdistw v] at hv
      split at hv
      · cases hv
      · exact h.waitIds v hv
    · -- predOk
      intro v d hd
      rcases hfinT_cases v (d + 1) hd with ⟨hv, hEq⟩ | ⟨hv, hd'⟩
      · have hdEq : d = du₀ := by omega
        subst hdEq
        refine ⟨u₀, ?_, ?_, (hnews v hv).2⟩
        · rw [hpredw v, if_pos hv]
        · exact hfinS_to_T u₀ d hdu₀
      · obtain ⟨u, hpu, hud, hvnb⟩ := h.predOk v d hd'
        refine ⟨u, ?_, hfinS_to_T u d hud, hvnb⟩
        rw [hpredw v, if_neg hv]
        exact hpu
    · -- present
      intro v hv
      rw [hdistw v]
      split
      · intro hcon
        cases hcon
      · exact h.present v hv
    · -- queueFin
      intro u hu
      rw [hqueue'] at hu
      rcases List.mem_append.mp hu with hu1 | hu1
      · obtain ⟨d, hd⟩ := hrest_sfin u hu1
        exact ⟨d, hfinS_to_T u d hd⟩
      · exact ⟨du₀ + 1, hfin_news u hu1⟩
    · -- queueMono
      rw [hqueue', List.pairwise_append]
      refine ⟨?_, ?_, ?_⟩
      · have hp := h.queueMono
        rw [hq, List.pairwise_cons] at hp
        refine hp.2.imp_of_mem ?_
        intro a b ha hb hR da db hda hdb
        obtain ⟨da', hda'⟩ := hrest_sfin a ha
        obtain ⟨db', hdb'⟩ := hrest_sfin b hb
        have haEq : da = da' := by
          have h1 := hfinS_to_T a da' hda'
          rw [DistIs] at hda h1
          rw [h1] at hda
          cases hda
          rfl
        have hbEq : db = db' := by
          have h1 := hfinS_to_T b db' hdb'
          rw [DistIs] at hdb h1
          rw [h1] at hdb
          cases hdb
          rfl
        subst haEq
        subst hbEq
        exact hR da db hda' hdb'
      · apply pairwise_of_all
        intro a ha b hb da db hda hdb
        have h1 : da = du₀ + 1 := by
          have h2 := hfin_news a ha
          rw [DistIs, h2] at hda
          cases hda
          rfl
        have h2 : db = du₀ + 1 := by
          have h3 := hfin_news b hb
          rw [DistIs, h3] at hdb
          cases hdb
          rfl
        omega
      · intro a ha b hb da db hda hdb
        have hbv : db = du₀ + 1 := by
          have h3 := hfin_news b hb
          rw [DistIs, h3] at hdb
          cases hdb
          rfl
        obtain ⟨da', hda'⟩ := hrest_sfin a ha
        have haEq : da = da' := by
          have h1 := hfinS_to_T a da' hda'
          rw [DistIs] at hda h1
          rw [h1] at hda
          cases hda
          rfl
        subst haEq
        have := h.visBand a da hda' u₀ hu₀q du₀ hdu₀
        omega
    · -- visBand
      intro v dv hv u hu du hdu
      rw [hqueue'] at hu
      rcases hfinT_cases v dv hv with ⟨hvn, rfl⟩ | ⟨hvn, hv'⟩
      · rcases List.mem_append.mp hu with hu1 | hu1
        · obtain ⟨du', hdu'⟩ := hrest_sfin u hu1
          have hduEq : du = du' := by
            have h1 := hfinS_to_T u du' hdu'
            rw [DistIs] at hdu h1
            rw [h1] at hdu
            cases hdu
            rfl
          subst hduEq
          have := hmono_head u hu1 du hdu'
          omega
        · have hduEq : du = du₀ + 1 := by
            have h3 := hfin_news u hu1
            rw [DistIs, h3] at hdu
            cases hdu
            rfl
          omega
      · rcases List.mem_append.mp hu with hu1 | hu1
        · obtain ⟨du', hdu'⟩ := hrest_sfin u hu1
          have hduEq : du = du' := by
            have h1 := hfinS_to_T u du' hdu'
            rw [DistIs] at hdu h1
            rw [h1] at hdu
            cases hdu
            rfl
          subst hduEq
          exact h.visBand v dv hv' u (by rw [hq]; exact List.mem_cons_of_mem u₀ hu1) du hdu'
        · have hduEq : du = du₀ + 1 := by
            have h3 := hfin_news u hu1
            rw [DistIs, h3] at hdu
            cases hdu
            rfl
          have := h.visBand v dv hv' u₀ hu₀q du₀ hdu₀
          omega
    · -- relaxed
      intro u du hu hnotq v hv
      rw [hqueue'] at hnotq
      by_cases hu₀eq : u = u₀
      · subst hu₀eq
        have hduEq : du = du₀ := by
          rcases hfinT_cases u du hu with ⟨hun, _⟩ | ⟨_, hu'2⟩
          · exact absurd hun (hsfin_not_news u du₀ hdu₀)
          · rw [DistIs] at hu'2
            rw [hdu₀] at hu'2
            cases hu'2
            rfl
        subst hduEq
        by_cases hvn : v ∈ news
        · exact ⟨du + 1, hfin_news v hvn, Nat.le_refl _⟩
        · have hnotwait : ¬ s.dist v = some none := by
            intro hw
            exact hvn ((hiff v).mpr ⟨hw, hv⟩)
          have hvids : v ∈ ids := hclosed u v hv
          have hpres := h.present v hvids
          rcases hsd : s.dist v with _ | x
          · exact absurd hsd hpres
          · rcases x with _ | dv
            · exact absurd hsd hnotwait
            · have hsv : DistIs s v dv := hsd
              refine ⟨dv, hfinS_to_T v dv hsv, ?_⟩
              exact h.visBand v dv hsv u hu₀q du hdu₀
      · have hunotnews : u ∉ news := by
          intro hun
          exact hnotq (List.mem_append.mpr (Or.inr hun))
        have hus : DistIs s u du := by
          have h1 := hfin_old u hunotnews
          rw [DistIs] at hu ⊢
          rw [h1] at hu
          exact hu
        have hunotq : u ∉ s.queue := by
          rw [hq]
          intro hmem
          rcases List.mem_cons.mp hmem with h1 | h1
          · exact hu₀eq h1
          · exact hnotq (List.mem_append.mpr (Or.inl h1))
        obtain ⟨dv, hdv, hle⟩ := h.relaxed u du hus hunotq v hv
        exact ⟨dv, hfinS_to_T v dv hdv, hle⟩
  · -- the measure drops by one
    have hwdrop : ((ids.dedup).filter (fun v => decide (t.dist v = some none))).length
        + news.length
        = ((ids.dedup).filter (fun v => decide (s.dist v = some none))).length := by
      have hfuneq : (fun v => decide (t.dist v = some none))
          = fun v => decide ((if v ∈ news then some (some (du₀ + 1)) else s.dist v)
              = some none) := by
        funext v
        rw [hdistw v]
      rw [hfuneq]
      apply waiting_filter_drop ids (some (some (du₀ + 1))) (by simp) news s.dist hnodup
      intro v hv
      exact ⟨(hnews v hv).1, List.mem_dedup.mpr (h.waitIds v (hnews v hv).1)⟩
    have hqlen : t.queue.length = rest.length + news.length := by
      rw [hqueue', List.length_append]
    have hslen : s.queue.length = rest.length + 1 := by
      rw [hq, List.length_cons]
    rw [bfsMeasure, bfsMeasure]
    omega

/-- With enough fuel the BFS loop drains the queue while keeping the
invariant. -/
theorem bfsLoop_drain {adj : AdjMap} {start : Nat} {ids : List Nat}
    (hclosed : ∀ u v, v ∈ nbrs adj u → v ∈ ids) :
    ∀ (fuel : Nat) (s : BfsState), BfsInv adj start ids s → bfsMeasure ids s ≤ fuel →
      BfsInv adj start ids (bfsLoop adj fuel s) ∧ (bfsLoop adj fuel s).queue = [] := by
  intro fuel
  induction fuel with
  | zero =>
    intro s hInv hm
    have hq : s.queue = [] := by
      rw [bfsMeasure] at hm
      exact List.length_eq_zero.mp (by omega)
    exact ⟨hInv, hq⟩
  | succ fuel ih =>
    intro s hInv hm
    cases hq : s.queue with
    | nil =>
      have hEq : bfsLoop adj (fuel + 1) s = s := by
        rw [bfsLoop, hq]
      rw [hEq]
      exact ⟨hInv, hq⟩
    | cons u₀ rest =>
      have hstep := bfsInv_step hclosed hInv hq
      have hEq : bfsLoop adj (fuel + 1) s
          = bfsLoop adj fuel ((nbrs adj u₀).foldl (bfsVisit u₀) { s with queue := rest }) := by
        rw [bfsLoop, hq]
      rw [hEq]
      exact ih _ hstep.1 (by omega)

/-- The drained final state computes walks of exactly the stored lengths and
reaches every node a walk reaches, within the walk's length. -/
theorem bfs_final {adj : AdjMap} {start : Nat} {ids : List Nat} {s : BfsState}
    (hInv : BfsInv adj start ids s) (hempty : s.queue = []) :
    (∀ v k, WalkN adj start v k → ∃ d, d ≤ k ∧ DistIs s v d) ∧
    (∀ v d, DistIs s v d → WalkN adj start v d) := by
  constructor
  · intro v k hw
    induction hw with
    | refl => exact ⟨0, Nat.le_refl 0, hInv.start0⟩
    | step hw hnb ih =>
      obtain ⟨du, hle, hdu⟩ := ih
      obtain ⟨dv, hdv, hle2⟩ := hInv.relaxed _ du hdu
        (by rw [hempty]; exact List.not_mem_nil _) _ hnb
      exact ⟨dv, by omega, hdv⟩
  · exact hInv.finWalk

/-- C1: bfs on the symmetric adjacency built from a graph assigns the start
node distance 0, assigns every node the exact length of a shortest
unit-weight walk from the start, and assigns the Infinity sentinel exactly
to the nodes no walk reaches. -/
theorem bfs_shortest_distances (g : Graph) (start : Nat)
    (hstart : start ∈ g.ids) (hvalid : validEdges g) :
    ((bfs start (buildAdj g) g.nodes).dist start = some (some 0)) ∧
    (∀ u v, v ∈ nbrs (buildAdj g) u ↔ u ∈ nbrs (buildAdj g) v) ∧
    (∀ v ∈ g.ids, ∀ d, ((bfs start (buildAdj g) g.nodes).dist v = some (some d) ↔
      (WalkN (buildAdj g) start v d ∧ ∀ k, WalkN (buildAdj g) start v k → d ≤ k))) ∧
    (∀ v ∈ g.ids, ((bfs start (buildAdj g) g.nodes).dist v = some none ↔
      ∀ k, ¬ WalkN (buildAdj g) start v k)) := by
  have hclosed := nbrs_buildAdj_closed g hvalid
  have hInit := bfsInv_init (buildAdj g) start g.ids
  have hmeas : bfsMeasure g.ids
      ⟨mapSet (fun v => if v ∈ g.ids then some none else none) start (some 0),
       (fun v => if v ∈ g.ids then some none else none), [start]⟩ ≤ g.ids.length + 1 := by
    rw [bfsMeasure]
    have h1 := List.length_filter_le
      (fun v => decide ((⟨mapSet (fun v => if v ∈ g.ids then some none else none) start
        (some 0), (fun v => if v ∈ g.ids then some none else none), [start]⟩
          : BfsState).dist v = some none)) g.ids.dedup
    have h2 : g.ids.dedup.length ≤ g.ids.length := (List.dedup_sublist g.ids).length_le
    have h3 : (⟨mapSet (fun v => if v ∈ g.ids then some none else none) start (some 0),
       (fun v => if v ∈ g.ids then some none else none), [start]⟩ : BfsState).queue.length
        = 1 := rfl
    omega
  have hdrain := bfsLoop_drain hclosed (g.ids.length + 1) _ hInit hmeas
  have hbfs : bfs start (buildAdj g) g.nodes
      = bfsLoop (buildAdj g) (g.ids.length + 1)
        ⟨mapSet (fun v => if v ∈ g.ids then some none else none) start (some 0),
         (fun v => if v ∈ g.ids then some none else none), [start]⟩ := rfl
  obtain ⟨hcomplete, hsound⟩ := bfs_final hdrain.1 hdrain.2
  have hsval : ∀ v d d', DistIs (bfsLoop (buildAdj g) (g.ids.length + 1)
      ⟨mapSet (fun v => if v ∈ g.ids then some none else none) start (some 0),
       (fun v => if v ∈ g.ids then some none else none), [start]⟩) v d →
      DistIs (bfsLoop (buildAdj g) (g.ids.length + 1)
      ⟨mapSet (fun v => if v ∈ g.ids then some none else none) start (some 0),
       (fun v => if v ∈ g.ids then some none else none), [start]⟩) v d' → d = d' := by
    intro v d d' h1 h2
    rw [DistIs] at h1 h2
    rw [h1] at h2
    cases h2
    rfl
  refine ⟨?_, buildAdj_symm g hvalid, ?_, ?_⟩
  · rw [hbfs]
    exact hdrain.1.start0
  · intro v _ d
    rw [hbfs]
    constructor
    · intro hd
      refine ⟨hsound v d hd, ?_⟩
      intro k hk
      obtain ⟨d', hle, hd'⟩ := hcomplete v k hk
      have := hsval v d d' hd hd'
      omega
    · rintro ⟨hw, hmin⟩
      obtain ⟨d', hle, hd'⟩ := hcomplete v d hw
      have := hmin d' (hsound v d' hd')
      have hdd : d = d' := by omega
      rw [hdd]
      exact hd'
  · intro v hvids
    rw [hbfs]
    constructor
    · intro hnone k hk
      obtain ⟨d', _, hd'⟩ := hcomplete v k hk
      rw [DistIs] at hd'
      rw [hnone] at hd'
      cases hd'
    · intro hno
      have hpres := hdrain.1.present v hvids
      rcases hsd : (bfsLoop (buildAdj g) (g.ids.length + 1)
          ⟨mapSet (fun v => if v ∈ g.ids then some none else none) start (some 0),
           (fun v => if v ∈ g.ids then some none else none), [start]⟩).dist v with _ | x
      · exact absurd hsd hpres
      · rcases x with _ | dv
        · rfl
        · exact absurd (hsound v dv hsd) (hno dv)

/-- C1 witness: the theorem applied to the 2-node ring with start node 0. -/
theorem bfs_shortest_distances_witness :
    (0 ∈ (generateRing 2 1).ids ∧ validEdges (generateRing 2 1)) ∧
    (((bfs 0 (buildAdj (generateRing 2 1)) (generateRing 2 1).nodes).dist 0
        = some (some 0)) ∧
    (∀ u v, v ∈ nbrs (buildAdj (generateRing 2 1)) u ↔
      u ∈ nbrs (buildAdj (generateRing 2 1)) v) ∧
    (∀ v ∈ (generateRing 2 1).ids, ∀ d,
      ((bfs 0 (buildAdj (generateRing 2 1)) (generateRing 2 1).nodes).dist v
          = some (some d) ↔
        (WalkN (buildAdj (generateRing 2 1)) 0 v d ∧
          ∀ k, WalkN (buildAdj (generateRing 2 1)) 0 v k → d ≤ k))) ∧
    (∀ v ∈ (generateRing 2 1).ids,
      ((bfs 0 (buildAdj (generateRing 2 1)) (generateRing 2 1).nodes).dist v = some none ↔
        ∀ k, ¬ WalkN (buildAdj (generateRing 2 1)) 0 v k))) :=
  ⟨⟨by decide, by unfold validEdges; decide⟩,
    bfs_shortest_distances (generateRing 2 1) 0 (by decide) (by unfold validEdges; decide)⟩

/-- The predecessor walk of `reconstructPath`: from a node at finite BFS
distance `d < fuel` it reaches the source in exactly `d` steps, prepending
the predecessor chain. -/
theorem reconstructGo_spec {adj : AdjMap} {start : Nat} {ids : List Nat} {s : BfsState}
    (hInv : BfsInv adj start ids s) (hzero : ∀ v, DistIs s v 0 → v = start) :
    ∀ (d : Nat) (current : Nat) (path : List Nat) (fuel : Nat), d < fuel →
      DistIs s current d →
      List.Chain' (fun a b => s.pred b = some (some a)) (current :: path) →
      ∃ pre : List Nat, reconstructGo s.pred start fuel current (current :: path)
          = some (start, pre ++ current :: path) ∧
        pre.length = d ∧
        (pre ++ current :: path).head? = some start ∧
        List.Chain' (fun a b => s.pred b = some (some a)) (pre ++ current :: path) := by
  intro d
  induction d with
  | zero =>
    intro current path fuel hfuel hdist hch
    obtain ⟨f, rfl⟩ : ∃ f, fuel = f + 1 := ⟨fuel - 1, by omega⟩
    have hcs : current = start := hzero current hdist
    refine ⟨[], ?_, rfl, ?_, ?_⟩
    · rw [reconstructGo, if_pos hcs, hcs]
      rfl
    · rw [List.nil_append, List.head?_cons, hcs]
    · rw [List.nil_append]
      exact hch
  | succ d ih =>
    intro current path fuel hfuel hdist hch
    obtain ⟨f, rfl⟩ : ∃ f, fuel = f + 1 := ⟨fuel - 1, by omega⟩
    have hcs : current ≠ start := by
      intro hEq
      have h0 := hInv.start0
      rw [DistIs, hEq] at hdist
      rw [hdist] at h0
      cases h0
    obtain ⟨u, hpu, hud, hcn⟩ := hInv.predOk current d hdist
    have hch' : List.Chain' (fun a b => s.pred b = some (some a)) (u :: current :: path) :=
      List.chain'_cons.mpr ⟨hpu, hch⟩
    obtain ⟨pre', hgo, hlen, hhead, hch''⟩ := ih u (current :: path) f (by omega) hud hch'
    refine ⟨pre' ++ [u], ?_, ?_, ?_, ?_⟩
    · have hstepEq : reconstructGo s.pred start (f + 1) current (current :: path)
          = reconstructGo s.pred start f u (u :: current :: path) := by
        rw [reconstructGo, if_neg hcs, hpu]
      rw [hstepEq, hgo, List.append_assoc, List.singleton_append]
    · rw [List.length_append, hlen]
      rfl
    · rw [List.append_assoc, List.singleton_append]
      exact hhead
    · rw [List.append_assoc, List.singleton_append]
      exact hch''

/-- A node at finite BFS distance `d` yields `d + 1` distinct node ids
(the predecessor chain), bounding `d` by the number of distinct ids. -/
theorem distIs_chain_nodup {adj : AdjMap} {start : Nat} {ids : List Nat} {s : BfsState}
    (hInv : BfsInv adj start ids s) (hstart : start ∈ ids) :
    ∀ (d : Nat) (v : Nat), DistIs s v d →
      ∃ L : List Nat, L.length = d + 1 ∧ L.Nodup ∧ (∀ x ∈ L, x ∈ ids) ∧
        (∀ x ∈ L, ∃ dx, dx ≤ d ∧ DistIs s x dx) := by
  intro d
  induction d with
  | zero =>
    intro v hv
    refine ⟨[v], rfl, List.nodup_singleton v, ?_, ?_⟩
    · intro x hx
      have hEq := List.mem_singleton.mp hx
      subst hEq
      rcases hInv.finIds x 0 hv with h | h
      · exact h
      · rw [h]
        exact hstart
    · intro x hx
      have hEq := List.mem_singleton.mp hx
      subst hEq
      exact ⟨0, Nat.le_refl 0, hv⟩
  | succ d ih =>
    intro v hv
    obtain ⟨u, _, hud, _⟩ := hInv.predOk v d hv
    obtain ⟨L, hlen, hnd, hids, hdx⟩ := ih u hud
    have hvL : v ∉ L := by
      intro hmem
      obtain ⟨dx, hdxle, hdxv⟩ := hdx v hmem
      rw [DistIs] at hv hdxv
      rw [hv] at hdxv
      cases hdxv
      omega
    refine ⟨v :: L, by rw [List.length_cons, hlen], List.nodup_cons.mpr ⟨hvL, hnd⟩, ?_, ?_⟩
    · intro x hx
      rcases List.mem_cons.mp hx with rfl | hx'
      · rcases hInv.finIds x (d + 1) hv with h | h
        · exact h
        · rw [h]
          exact hstart
      · exact hids x hx'
    · intro x hx
      rcases List.mem_cons.mp hx with rfl | hx'
      · exact ⟨d + 1, Nat.le_refl _, hv⟩
      · obtain ⟨dx, hdxle, hdxv⟩ := hdx x hx'
        exact ⟨dx, by omega, hdxv⟩

theorem distIs_lt_dedup_length {adj : AdjMap} {start : Nat} {ids : List Nat} {s : BfsState}
    (hInv : BfsInv adj start ids s) (hstart : start ∈ ids) {d v : Nat}
    (hv : DistIs s v d) : d < ids.dedup.length := by
  obtain ⟨L, hlen, hnd, hids, _⟩ := distIs_chain_nodup hInv hstart d v hv
  have hcard : L.toFinset.card = L.length := List.toFinset_card_of_nodup hnd
  have hsub : L.toFinset ⊆ ids.toFinset := by
    intro x hx
    rw [List.mem_toFinset] at hx ⊢
    exact hids x hx
  have hmono := Finset.card_le_card hsub
  have hids_card : ids.toFinset.card = ids.dedup.length := List.card_toFinset ids
  omega

/-- The final state of `bfs` on a graph's own adjacency satisfies the
invariant and has drained its queue. -/
theorem bfs_inv_final (g : Graph) (start : Nat) (hvalid : validEdges g) :
    BfsInv (buildAdj g) start g.ids (bfs start (buildAdj g) g.nodes) ∧
    (bfs start (buildAdj g) g.nodes).queue = [] := by
  have hclosed := nbrs_buildAdj_closed g hvalid
  have hInit := bfsInv_init (buildAdj g) start g.ids
  have hmeas : bfsMeasure g.ids
      ⟨mapSet (fun v => if v ∈ g.ids then some none else none) start (some 0),
       (fun v => if v ∈ g.ids then some none else none), [start]⟩ ≤ g.ids.length + 1 := by
    rw [bfsMeasure]
    have h1 := List.length_filter_le
      (fun v => decide ((⟨mapSet (fun v => if v ∈ g.ids then some none else none) start
        (some 0), (fun v => if v ∈ g.ids then some none else none), [start]⟩
          : BfsState).dist v = some none)) g.ids.dedup
    have h2 : g.ids.dedup.length ≤ g.ids.length := (List.dedup_sublist g.ids).length_le
    have h3 : (⟨mapSet (fun v => if v ∈ g.ids then some none else none) start (some 0),
       (fun v => if v ∈ g.ids then some none else none), [start]⟩ : BfsState).queue.length
        = 1 := rfl
    omega
  exact bfsLoop_drain hclosed (g.ids.length + 1) _ hInit hmeas

/-- C2: for a predecessor map produced by bfs from a source over the
symmetric adjacency of a graph and a reachable target, reconstructPath does
not signal failure: it returns a sequence that starts at the source, ends
at the target, follows the predecessor links, and has length
distances[target] + 1, the stored distance being the shortest walk length;
in particular on Ring(12, 1) the path from 0 to 6 has exactly 7 nodes. -/
theorem reconstructPath_correct (g : Graph) (source target : Nat)
    (hsource : source ∈ g.ids) (hvalid : validEdges g)
    (hreach : Reachable (buildAdj g) source target) :
    (∃ d p, (bfs source (buildAdj g) g.nodes).dist target = some (some d) ∧
      (∀ k, WalkN (buildAdj g) source target k → d ≤ k) ∧
      reconstructPath source target (bfs source (buildAdj g) g.nodes).pred
        g.ids.dedup.length = some p ∧
      p.length = d + 1 ∧ p.head? = some source ∧ p.getLast? = some target ∧
      List.Chain' (fun a b =>
        (bfs source (buildAdj g) g.nodes).pred b = some (some a)) p) ∧
    (reconstructPath 0 6 (bfs 0 (buildAdj (generateRing 12 1))
        (generateRing 12 1).nodes).pred 12).map List.length = some 7 := by
  obtain ⟨hInv, hempty⟩ := bfs_inv_final g source hvalid
  obtain ⟨hcomplete, hsound⟩ := bfs_final hInv hempty
  have hzero : ∀ v, DistIs (bfs source (buildAdj g) g.nodes) v 0 → v = source := by
    intro v hv
    have hw := hsound v 0 hv
    cases hw
    rfl
  obtain ⟨k, hk⟩ := hreach
  obtain ⟨d, _, hd⟩ := hcomplete target k hk
  have hdlt := distIs_lt_dedup_length hInv hsource hd
  obtain ⟨pre, hgo, hlen, hhead, hchain⟩ := reconstructGo_spec hInv hzero d target []
    g.ids.dedup.length hdlt hd (List.chain'_singleton target)
  constructor
  · refine ⟨d, pre ++ [target], hd, ?_, ?_, ?_, hhead, ?_, hchain⟩
    · intro k' hk'
      obtain ⟨d', hle', hd'⟩ := hcomplete target k' hk'
      have hdd : d = d' := by
        rw [DistIs] at hd hd'
        rw [hd] at hd'
        cases hd'
        rfl
      omega
    · rw [reconstructPath, hgo]
      show (if source = source then some (pre ++ [target]) else none) = some (pre ++ [target])
      rw [if_pos rfl]
    · rw [List.length_append, hlen]
      rfl
    · rw [List.getLast?_concat]
  · decide

/-- C2 witness: the theorem applied to the 2-node ring, source 0 and
target 1. -/
theorem reconstructPath_correct_witness :
    (0 ∈ (generateRing 2 1).ids ∧ validEdges (generateRing 2 1) ∧
      Reachable (buildAdj (generateRing 2 1)) 0 1) ∧
    ((∃ d p, (bfs 0 (buildAdj (generateRing 2 1)) (generateRing 2 1).nodes).dist 1
        = some (some d) ∧
      (∀ k, WalkN (buildAdj (generateRing 2 1)) 0 1 k → d ≤ k) ∧
      reconstructPath 0 1 (bfs 0 (buildAdj (generateRing 2 1)) (generateRing 2 1).nodes).pred
        (generateRing 2 1).ids.dedup.length = some p ∧
      p.length = d + 1 ∧ p.head? = some 0 ∧ p.getLast? = some 1 ∧
      List.Chain' (fun a b =>
        (bfs 0 (buildAdj (generateRing 2 1)) (generateRing 2 1).nodes).pred b
          = some (some a)) p) ∧
    (reconstructPath 0 6 (bfs 0 (buildAdj (generateRing 12 1))
        (generateRing 12 1).nodes).pred 12).map List.length = some 7) :=
  ⟨⟨by decide, by unfold validEdges; decide,
      ⟨1, WalkN.step WalkN.refl (by decide)⟩⟩,
    reconstructPath_correct (generateRing 2 1) 0 1 (by decide)
      (by unfold validEdges; decide) ⟨1, WalkN.step WalkN.refl (by decide)⟩⟩

theorem walkN_concat {adj : AdjMap} {a b c k₁ k₂ : Nat}
    (h1 : WalkN adj a b k₁) (h2 : WalkN adj b c k₂) : WalkN adj a c (k₁ + k₂) := by
  induction h2 with
  | refl => exact h1
  | step _ hnb ih => exact WalkN.step ih hnb

theorem walkN_reverse {adj : AdjMap}
    (hsymm : ∀ u v, v ∈ nbrs adj u ↔ u ∈ nbrs adj v)
    {a b k : Nat} (h : WalkN adj a b k) : WalkN adj b a k := by
  induction h with
  | refl => exact WalkN.refl
  | step hw hnb ih =>
    rename_i u k' v
    have h1 : WalkN adj v u 1 := WalkN.step WalkN.refl ((hsymm u v).mp hnb)
    have h2 := walkN_concat h1 ih
    rw [Nat.add_comm 1 k'] at h2
    exact h2

/-- The reachable-count component of the `forEach` fold counts the keys with
finite distance. -/
theorem distFold_reachableCount (dist : JsMap) :
    ∀ (K : List Nat) (acc : DistAcc),
      (K.foldl (distStep dist) acc).reachableCount
        = acc.reachableCount + (K.filter (fun k => isFin (dist k))).length := by
  intro K
  induction K with
  | nil =>
    intro acc
    simp
  | cons k K ih =>
    intro acc
    rw [List.foldl_cons, ih, List.filter_cons]
    rcases hk : dist k with _ | x
    · rw [if_neg (by decide)]
      have hstep : distStep dist acc k = acc := by rw [distStep, hk]
      rw [hstep]
    · rcases x with _ | d
      · rw [if_neg (by decide)]
        have hstep : distStep dist acc k = acc := by rw [distStep, hk]
        rw [hstep]
      · rw [if_pos (show isFin (some (some d)) = true from rfl)]
        have hstep : (distStep dist acc k).reachableCount = acc.reachableCount + 1 := by
          rw [distStep, hk]
        rw [hstep, List.length_cons]
        omega

/-- Once the metrics loop has recorded a disconnection, it never clears
it. -/
theorem metricsFold_false (g : Graph) (adj : AdjMap) (n : Nat) :
    ∀ (S : List (Nat × Node)) (acc : MetricsAcc), acc.isConnected = false →
      (S.foldl (fun a p => metricsStep g adj n a p.1 p.2) acc).isConnected = false := by
  intro S
  induction S with
  | nil => exact fun acc h => h
  | cons p S ih =>
    intro acc h
    rw [List.foldl_cons]
    refine ih _ ?_
    rw [metricsStep]
    split
    · show (if _ < n then false else acc.isConnected) = false
      split
      · rfl
      · exact h
    · show (if acc.isConnected = true ∧ _ then false else acc.isConnected) = false
      split
      · rfl
      · exact h

theorem mem_enumFrom_le (k : Nat) :
    ∀ (l : List Node) (p : Nat × Node), p ∈ List.enumFrom k l → k ≤ p.1 := by
  intro l
  induction l generalizing k with
  | nil =>
    intro p hp
    exact absurd hp (List.not_mem_nil p)
  | cons a l ih =>
    intro p hp
    rw [List.enumFrom_cons] at hp
    rcases List.mem_cons.mp hp with rfl | hp'
    · exact Nat.le_refl k
    · have := ih (k + 1) p hp'
      omega

/-- If some node id is unreachable from the first source, the very first
iteration of the metrics loop records the disconnection. -/
theorem metricsStep_first_disconnected (g : Graph) (hvalid : validEdges g)
    (nd₀ : Node) (b : Nat) (hb : b ∈ g.ids)
    (hnr : ¬ Reachable (buildAdj g) nd₀.id b) (acc : MetricsAcc) (n : Nat)
    (hn : g.ids.dedup.length ≤ n) :
    (metricsStep g (buildAdj g) n acc 0 nd₀).isConnected = false := by
  obtain ⟨hInv, hempty⟩ := bfs_inv_final g nd₀.id hvalid
  obtain ⟨_, hsound⟩ := bfs_final hInv hempty
  have hbfin : isFin ((bfs nd₀.id (buildAdj g) g.nodes).dist b) = false := by
    rcases hd : (bfs nd₀.id (buildAdj g) g.nodes).dist b with _ | x
    · rfl
    · rcases x with _ | d
      · rfl
      · exact absurd ⟨d, hsound b d hd⟩ hnr
  have hrc := distFold_reachableCount (bfs nd₀.id (buildAdj g) g.nodes).dist g.ids.dedup
    ⟨0, 0, acc.totalSum, acc.pairCount⟩
  have hlt : ((g.ids.dedup).filter
      (fun k => isFin ((bfs nd₀.id (buildAdj g) g.nodes).dist k))).length
      < g.ids.dedup.length := by
    rcases Nat.lt_or_ge ((g.ids.dedup).filter
        (fun k => isFin ((bfs nd₀.id (buildAdj g) g.nodes).dist k))).length
        g.ids.dedup.length with h | h
    · exact h
    · exfalso
      have hle := List.length_filter_le
        (fun k => isFin ((bfs nd₀.id (buildAdj g) g.nodes).dist k)) g.ids.dedup
      have hEq : ((g.ids.dedup).filter
          (fun k => isFin ((bfs nd₀.id (buildAdj g) g.nodes).dist k))).length
          = g.ids.dedup.length := by omega
      have hall := List.filter_length_eq_length.mp hEq
      have := hall b (List.mem_dedup.mpr hb)
      rw [hbfin] at this
      cases this
  have hd0 : (⟨0, 0, acc.totalSum, acc.pairCount⟩ : DistAcc).reachableCount = 0 := rfl
  rw [metricsStep]
  split
  · show (if _ < n then false else acc.isConnected) = false
    rw [hrc]
    rw [if_pos (by omega)]
  · rename_i hcon
    exact absurd rfl hcon

/-- Core of C4, shared with C10: a graph with at least two nodes in which
some node cannot reach another is reported disconnected. -/
theorem metrics_disconnected_core (g : Graph) (h2 : 2 ≤ g.nodes.length)
    (hvalid : validEdges g) (x y : Nat) (hx : x ∈ g.ids) (hy : y ∈ g.ids)
    (hnr : ¬ Reachable (buildAdj g) x y) :
    calculateGraphMetrics g (buildAdj g) = ⟨none, none, false⟩ := by
  obtain ⟨nd₀, rest, hnodes⟩ : ∃ nd₀ rest, g.nodes = nd₀ :: rest := by
    cases hn : g.nodes with
    | nil =>
      rw [hn] at h2
      simp at h2
    | cons a l => exact ⟨a, l, rfl⟩
  -- some node id is unreachable from the first source
  have hsymm := buildAdj_symm g hvalid
  have hid₀ : nd₀.id ∈ g.ids := by
    rw [Graph.ids, hnodes]
    exact List.mem_map.mpr ⟨nd₀, List.mem_cons_self _ _, rfl⟩
  have hexists : ∃ b ∈ g.ids, ¬ Reachable (buildAdj g) nd₀.id b := by
    by_cases hbx : Reachable (buildAdj g) nd₀.id x
    · refine ⟨y, hy, ?_⟩
      intro hby
      obtain ⟨k1, hk1⟩ := hbx
      obtain ⟨k2, hk2⟩ := hby
      exact hnr ⟨k1 + k2, walkN_concat (walkN_reverse hsymm hk1) hk2⟩
    · exact ⟨x, hx, hbx⟩
  obtain ⟨b, hb, hnrb⟩ := hexists
  have hdedup_le : g.ids.dedup.length ≤ g.nodes.length := by
    have h1 : g.ids.dedup.length ≤ g.ids.length := (List.dedup_sublist g.ids).length_le
    have h2' : g.ids.length = g.nodes.length := by
      rw [Graph.ids, List.length_map]
    omega
  have hfirst := metricsStep_first_disconnected g hvalid nd₀ b hb hnrb
    ⟨0, 0, 0, true, 0⟩ g.nodes.length hdedup_le
  have henum : g.nodes.enum = (0, nd₀) :: List.enumFrom 1 rest := by
    rw [hnodes, List.enum_cons]
  have hfold : ((g.nodes.enum).foldl
      (fun a p => metricsStep g (buildAdj g) g.nodes.length a p.1 p.2)
      ⟨0, 0, 0, true, 0⟩).isConnected = false := by
    rw [henum, List.foldl_cons]
    exact metricsFold_false g (buildAdj g) g.nodes.length _ _ hfirst
  rw [calculateGraphMetrics]
  rw [if_neg (by omega)]
  rw [Metrics.mk.injEq]
  refine ⟨?_, ?_, hfold⟩
  · rw [if_neg (by rw [hfold]; simp)]
  · rw [if_neg (by rw [hfold]; simp)]

/-- C4: a graph with at least two nodes in which some node cannot reach
another is detected as disconnected: isConnected is false and both diameter
and avgPathLength carry the Infinity ("Disconnected") sentinel — a returned
record, not a raised error. -/
theorem metrics_disconnected (g : Graph) (h2 : 2 ≤ g.nodes.length)
    (hvalid : validEdges g) (x y : Nat) (hx : x ∈ g.ids) (hy : y ∈ g.ids)
    (hnr : ¬ Reachable (buildAdj g) x y) :
    calculateGraphMetrics g (buildAdj g) = ⟨none, none, false⟩ :=
  metrics_disconnected_core g h2 hvalid x y hx hy hnr

theorem walkN_no_edges {g : Graph} (hE : g.edges = []) {a b k : Nat}
    (h : WalkN (buildAdj g) a b k) : b = a := by
  have hval : validEdges g := by
    intro e he
    rw [hE] at he
    exact absurd he (List.not_mem_nil e)
  induction h with
  | refl => rfl
  | step hw hnb ih =>
    exfalso
    rename_i u k' v
    obtain ⟨_, e, he, _⟩ := (mem_nbrs_buildAdj g hval u v).mp hnb
    rw [hE] at he
    exact absurd he (List.not_mem_nil e)

/-- C4 witness: the theorem applied to two isolated nodes (ids 0 and 1, no
edges). -/
theorem metrics_disconnected_witness :
    (2 ≤ (Graph.mk [⟨0, none, none, none⟩, ⟨1, none, none, none⟩] []).nodes.length ∧
      validEdges (Graph.mk [⟨0, none, none, none⟩, ⟨1, none, none, none⟩] []) ∧
      0 ∈ (Graph.mk [⟨0, none, none, none⟩, ⟨1, none, none, none⟩] []).ids ∧
      1 ∈ (Graph.mk [⟨0, none, none, none⟩, ⟨1, none, none, none⟩] []).ids ∧
      ¬ Reachable (buildAdj (Graph.mk [⟨0, none, none, none⟩, ⟨1, none, none, none⟩] []))
        0 1) ∧
    calculateGraphMetrics (Graph.mk [⟨0, none, none, none⟩, ⟨1, none, none, none⟩] [])
      (buildAdj (Graph.mk [⟨0, none, none, none⟩, ⟨1, none, none, none⟩] []))
      = ⟨none, none, false⟩ := by
  have hnr : ¬ Reachable (buildAdj (Graph.mk [⟨0, none, none, none⟩, ⟨1, none, none, none⟩]
      [])) 0 1 := by
    rintro ⟨k, hk⟩
    have := walkN_no_edges rfl hk
    cases this
  exact ⟨⟨by decide, by unfold validEdges; decide, by decide, by decide, hnr⟩,
    metrics_disconnected (Graph.mk [⟨0, none, none, none⟩, ⟨1, none, none, none⟩] [])
      (by decide) (by unfold validEdges; decide) 0 1 (by decide) (by decide) hnr⟩

/-- C10: if calculateGraphMetrics reports isConnected = true on a graph
whose edge endpoints are all node ids, the graph really is connected: the
reachable-count comparison never misreports a disconnected graph as
connected. -/
theorem metrics_isConnected_implies_connected (g : Graph) (hvalid : validEdges g)
    (hflag : (calculateGraphMetrics g (buildAdj g)).isConnected = true) :
    specConnected g := by
  by_cases hn : g.nodes.length ≤ 1
  · intro a ha b hb
    have hab : a = b := by
      rcases hns : g.nodes with _ | ⟨nd, rest⟩
      · rw [Graph.ids, hns] at ha
        exact absurd ha (List.not_mem_nil a)
      · have hrest : rest = [] := by
          rw [hns, List.length_cons] at hn
          exact List.length_eq_zero.mp (by omega)
        subst hrest
        rw [Graph.ids, hns] at ha hb
        have ha' := List.mem_singleton.mp ha
        have hb' := List.mem_singleton.mp hb
        rw [ha', hb']
    rw [hab]
    exact ⟨0, WalkN.refl⟩
  · by_contra hnc
    rw [specConnected] at hnc
    push_neg at hnc
    obtain ⟨x, hx, y, hy, hnr⟩ := hnc
    have hrec := metrics_disconnected_core g (by omega) hvalid x y hx hy hnr
    rw [hrec] at hflag
    cases hflag

theorem sdist_exists_min {adj : AdjMap} {a b : Nat} (h : Reachable adj a b) :
    WalkN adj a b (sdist adj a b) ∧ ∀ k, WalkN adj a b k → sdist adj a b ≤ k := by
  obtain ⟨k, hk⟩ := h
  constructor
  · exact Nat.sInf_mem ⟨k, hk⟩
  · intro k' hk'
    exact Nat.sInf_le hk'

theorem sdist_self (adj : AdjMap) (a : Nat) : sdist adj a a = 0 :=
  Nat.le_zero.mp (Nat.sInf_le (show WalkN adj a a 0 from WalkN.refl))

theorem sdist_pos {adj : AdjMap} {a b : Nat} (h : Reachable adj a b) (hne : b ≠ a) :
    0 < sdist adj a b := by
  rcases Nat.eq_zero_or_pos (sdist adj a b) with h0 | h0
  · exfalso
    have hw := (sdist_exists_min h).1
    rw [h0] at hw
    cases hw
    exact hne rfl
  · exact h0

/-- On a source that reaches every node id, the final distance map stores
exactly the spec-side shortest distances. -/
theorem bfs_dist_eq_sdist (g : Graph) (hvalid : validEdges g) {a : Nat}
    (hreach : ∀ b ∈ g.ids, Reachable (buildAdj g) a b) :
    ∀ b ∈ g.ids, (bfs a (buildAdj g) g.nodes).dist b
      = some (some (sdist (buildAdj g) a b)) := by
  obtain ⟨hInv, hempty⟩ := bfs_inv_final g a hvalid
  obtain ⟨hcomplete, hsound⟩ := bfs_final hInv hempty
  intro b hb
  obtain ⟨hw, hmin⟩ := sdist_exists_min (hreach b hb)
  obtain ⟨d, hle, hd⟩ := hcomplete b _ hw
  have h1 := hmin d (hsound b d hd)
  have hEq : d = sdist (buildAdj g) a b := by omega
  rw [← hEq]
  exact hd

/-- The `forEach` fold over keys that all hold finite distances, in closed
form. -/
theorem distFold_all_fin (dist : JsMap) (f : Nat → Nat) :
    ∀ (K : List Nat) (acc : DistAcc), (∀ k ∈ K, dist k = some (some (f k))) →
      K.foldl (distStep dist) acc =
        ⟨K.foldl (fun m k => max m (f k)) acc.currentMax,
         acc.reachableCount + K.length,
         acc.totalSum + (K.map f).sum,
         acc.pairCount + (K.filter (fun k => decide (0 < f k))).length⟩ := by
  intro K
  induction K with
  | nil =>
    intro acc _
    rw [List.foldl_nil, List.foldl_nil]
    rcases acc with ⟨cm, rc, ts, pc⟩
    rw [DistAcc.mk.injEq]
    refine ⟨rfl, rfl, rfl, rfl⟩
  | cons k K ih =>
    intro acc hall
    have hk := hall k (List.mem_cons_self k K)
    have hstep : distStep dist acc k =
        ⟨max acc.currentMax (f k), acc.reachableCount + 1,
         if 0 < f k then acc.totalSum + f k else acc.totalSum,
         if 0 < f k then acc.pairCount + 1 else acc.pairCount⟩ := by
      rw [distStep, hk]
    rw [List.foldl_cons, hstep, ih _ (fun x hx => hall x (List.mem_cons_of_mem k hx))]
    rw [DistAcc.mk.injEq]
    refine ⟨rfl, ?_, ?_, ?_⟩
    · show acc.reachableCount + 1 + K.length = acc.reachableCount + (k :: K).length
      rw [List.length_cons]
      omega
    · show (if 0 < f k then acc.totalSum + f k else acc.totalSum) + (K.map f).sum
        = acc.totalSum + ((k :: K).map f).sum
      rw [List.map_cons, List.sum_cons]
      by_cases h0 : 0 < f k
      · rw [if_pos h0]
        omega
      · rw [if_neg h0]
        omega
    · show (if 0 < f k then acc.pairCount + 1 else acc.pairCount)
        + (K.filter (fun k => decide (0 < f k))).length
        = acc.pairCount + ((k :: K).filter (fun k => decide (0 < f k))).length
      rw [List.filter_cons]
      by_cases h0 : 0 < f k
      · rw [if_pos h0, if_pos (by simpa using h0), List.length_cons]
        omega
      · rw [if_neg h0, if_neg (by simpa using h0)]

theorem foldl_max_shift (f : Nat → Nat) :
    ∀ (l : List Nat) (i j : Nat),
      l.foldl (fun m b => max m (f b)) (max i j)
        = max i (l.foldl (fun m b => max m (f b)) j) := by
  intro l
  induction l with
  | nil =>
    intro i j
    rfl
  | cons b l ih =>
    intro i j
    rw [List.foldl_cons, List.foldl_cons, Nat.max_assoc]
    exact ih i (max j (f b))

theorem foldl_max_from (f : Nat → Nat) (l : List Nat) (i : Nat) :
    l.foldl (fun m b => max m (f b)) i = max i (l.foldl (fun m b => max m (f b)) 0) := by
  have h := foldl_max_shift f l i 0
  rw [Nat.max_zero] at h
  exact h

theorem sum_map_filter_zero (f : Nat → Nat) (p : Nat → Bool) :
    ∀ (l : List Nat), (∀ b ∈ l, p b = false → f b = 0) →
      ((l.filter p).map f).sum = (l.map f).sum := by
  intro l
  induction l with
  | nil =>
    intro _
    rfl
  | cons b l ih =>
    intro h
    rw [List.filter_cons, List.map_cons, List.sum_cons]
    cases hp : p b
    · rw [if_neg (by simp)]
      rw [ih (fun x hx hpx => h x (List.mem_cons_of_mem b hx) hpx)]
      have hb0 : f b = 0 := h b (List.mem_cons_self b l) hp
      omega
    · rw [if_pos rfl, List.map_cons, List.sum_cons]
      rw [ih (fun x hx hpx => h x (List.mem_cons_of_mem b hx) hpx)]

/-- C10 witness: the theorem applied to the triangle Ring(3, 1). -/
theorem metrics_isConnected_implies_connected_witness :
    (validEdges (generateRing 3 1) ∧
      (calculateGraphMetrics (generateRing 3 1)
        (buildAdj (generateRing 3 1))).isConnected = true) ∧
    specConnected (generateRing 3 1) :=
  ⟨⟨by unfold validEdges; decide, by decide⟩,
    metrics_isConnected_implies_connected (generateRing 3 1)
      (by unfold validEdges; decide) (by decide)⟩

/-- Closed form of the `i = 0` iteration of the metrics loop when every key
holds a finite distance and the graph has exactly `n` distinct ids. -/
theorem metricsStep_conn_zero (g : Graph) (adj : AdjMap) (n : Nat) (acc : MetricsAcc)
    (nd : Node) (f : Nat → Nat)
    (hall : ∀ b ∈ g.ids.dedup, (bfs nd.id adj g.nodes).dist b = some (some (f b)))
    (hlen : g.ids.dedup.length = n) :
    metricsStep g adj n acc 0 nd =
      ⟨g.ids.dedup.foldl (fun m b => max m (f b)) acc.maxDistance,
       acc.totalSum + (g.ids.dedup.map f).sum,
       acc.pairCount + (g.ids.dedup.filter (fun b => decide (0 < f b))).length,
       acc.isConnected, n⟩ := by
  have hfold := distFold_all_fin (bfs nd.id adj g.nodes).dist f g.ids.dedup
    ⟨0, 0, acc.totalSum, acc.pairCount⟩ hall
  simp only [metricsStep]
  rw [hfold]
  rw [MetricsAcc.mk.injEq]
  refine ⟨?_, rfl, rfl, ?_, ?_⟩
  · rw [foldl_max_from f g.ids.dedup acc.maxDistance]
  · show (if 0 + g.ids.dedup.length < n then false else acc.isConnected) = acc.isConnected
    rw [if_neg (by omega)]
  · show 0 + g.ids.dedup.length = n
    omega

/-- Closed form of a later (`i ≠ 0`) iteration of the metrics loop, starting
from an accumulator that still records connectivity. -/
theorem metricsStep_conn_pos (g : Graph) (adj : AdjMap) (n : Nat) (acc : MetricsAcc)
    (i : Nat) (nd : Node) (f : Nat → Nat)
    (hall : ∀ b ∈ g.ids.dedup, (bfs nd.id adj g.nodes).dist b = some (some (f b)))
    (hi : i ≠ 0) (hc : acc.isConnected = true)
    (hf : acc.nodesInFirstComponent = g.ids.dedup.length) :
    metricsStep g adj n acc i nd =
      ⟨g.ids.dedup.foldl (fun m b => max m (f b)) acc.maxDistance,
       acc.totalSum + (g.ids.dedup.map f).sum,
       acc.pairCount + (g.ids.dedup.filter (fun b => decide (0 < f b))).length,
       true, acc.nodesInFirstComponent⟩ := by
  have hfold := distFold_all_fin (bfs nd.id adj g.nodes).dist f g.ids.dedup
    ⟨0, 0, acc.totalSum, acc.pairCount⟩ hall
  simp only [metricsStep]
  rw [hfold, if_neg hi]
  rw [MetricsAcc.mk.injEq]
  refine ⟨?_, rfl, rfl, ?_, rfl⟩
  · rw [foldl_max_from f g.ids.dedup acc.maxDistance]
  · show (if acc.isConnected = true ∧ ¬(0 + g.ids.dedup.length = acc.nodesInFirstComponent)
        then false else acc.isConnected) = true
    rw [if_neg (fun hcond => hcond.2 (by omega)), hc]

theorem mem_enumFrom_snd (k : Nat) :
    ∀ (l : List Node) (p : Nat × Node), p ∈ List.enumFrom k l → p.2 ∈ l := by
  intro l
  induction l generalizing k with
  | nil =>
    intro p hp
    exact absurd hp (List.not_mem_nil p)
  | cons a l ih =>
    intro p hp
    rw [List.enumFrom_cons] at hp
    rcases List.mem_cons.mp hp with rfl | hp'
    · exact List.mem_cons_self a l
    · exact List.mem_cons_of_mem a (ih (k + 1) p hp')

theorem enumFrom_map_body (H : Node → Nat) :
    ∀ (l : List Node) (k : Nat),
      (List.enumFrom k l).map (fun p => H p.2) = l.map H := by
  intro l
  induction l with
  | nil =>
    intro k
    rfl
  | cons a l ih =>
    intro k
    rw [List.enumFrom_cons, List.map_cons, List.map_cons, ih (k + 1)]

theorem enumFrom_foldl_body (G : Node → Nat → Nat) :
    ∀ (l : List Node) (k : Nat) (i : Nat),
      (List.enumFrom k l).foldl (fun m p => G p.2 m) i = l.foldl (fun m nd => G nd m) i := by
  intro l
  induction l with
  | nil =>
    intro k i
    rfl
  | cons a l ih =>
    intro k i
    rw [List.enumFrom_cons, List.foldl_cons, List.foldl_cons, ih (k + 1)]

/-- The tail of the metrics loop (iterations with `i ≠ 0`), in closed form,
when every source sees only finite distances and the first component already
counted all `g.ids.dedup.length` ids. -/
theorem metricsFold_conn_tail (g : Graph) (adj : AdjMap) (n : Nat)
    (F : Nat → Nat → Nat)
    (hsrc : ∀ nd ∈ g.nodes, ∀ b ∈ g.ids.dedup,
      (bfs nd.id adj g.nodes).dist b = some (some (F nd.id b))) :
    ∀ (S : List (Nat × Node)) (acc : MetricsAcc),
      (∀ p ∈ S, p.1 ≠ 0) → (∀ p ∈ S, p.2 ∈ g.nodes) →
      acc.isConnected = true → acc.nodesInFirstComponent = g.ids.dedup.length →
      S.foldl (fun a p => metricsStep g adj n a p.1 p.2) acc =
        ⟨S.foldl (fun m p =>
            g.ids.dedup.foldl (fun m b => max m (F p.2.id b)) m) acc.maxDistance,
         acc.totalSum + (S.map (fun p => (g.ids.dedup.map (F p.2.id)).sum)).sum,
         acc.pairCount + (S.map (fun p =>
           (g.ids.dedup.filter (fun b => decide (0 < F p.2.id b))).length)).sum,
         true, acc.nodesInFirstComponent⟩ := by
  intro S
  induction S with
  | nil =>
    intro acc _ _ hc hf
    simp only [List.foldl_nil, List.map_nil, List.sum_nil, Nat.add_zero]
    rw [← hc]
  | cons p S ih =>
    intro acc hnz hmem hc hf
    have hstep := metricsStep_conn_pos g adj n acc p.1 p.2 (F p.2.id)
      (hsrc p.2 (hmem p (List.mem_cons_self p S)))
      (hnz p (List.mem_cons_self p S)) hc hf
    rw [List.foldl_cons, hstep,
      ih ⟨g.ids.dedup.foldl (fun m b => max m (F p.2.id b)) acc.maxDistance,
          acc.totalSum + (g.ids.dedup.map (F p.2.id)).sum,
          acc.pairCount + (g.ids.dedup.filter (fun b => decide (0 < F p.2.id b))).length,
          true, acc.nodesInFirstComponent⟩
        (fun q hq => hnz q (List.mem_cons_of_mem p hq))
        (fun q hq => hmem q (List.mem_cons_of_mem p hq)) rfl hf]
    rw [MetricsAcc.mk.injEq]
    refine ⟨by rw [List.foldl_cons], ?_, ?_, rfl, rfl⟩
    · show acc.totalSum + (g.ids.dedup.map (F p.2.id)).sum
          + (S.map (fun p => (g.ids.dedup.map (F p.2.id)).sum)).sum
        = acc.totalSum + ((p :: S).map (fun p => (g.ids.dedup.map (F p.2.id)).sum)).sum
      rw [List.map_cons, List.sum_cons]
      omega
    · show acc.pairCount
          + (g.ids.dedup.filter (fun b => decide (0 < F p.2.id b))).length
          + (S.map (fun p =>
              (g.ids.dedup.filter (fun b => decide (0 < F p.2.id b))).length)).sum
        = acc.pairCount + ((p :: S).map (fun p =>
            (g.ids.dedup.filter (fun b => decide (0 < F p.2.id b))).length)).sum
      rw [List.map_cons, List.sum_cons]
      omega

theorem map_congr_on {α : Type _} {β : Type _} (f f' : α → β) :
    ∀ l : List α, (∀ a ∈ l, f a = f' a) → l.map f = l.map f' := by
  intro l
  induction l with
  | nil =>
    intro _
    rfl
  | cons a l ih =>
    intro h
    rw [List.map_cons, List.map_cons, h a (List.mem_cons_self a l),
      ih (fun x hx => h x (List.mem_cons_of_mem a hx))]

/-- C3: on a connected graph with at least two (distinct-id) nodes,
`calculateGraphMetrics` reports isConnected, a diameter equal to the
maximum over all node pairs of the shortest-path distance, and an average
path length equal to the sum of shortest-path distances over all ordered
non-self pairs divided by the number of such pairs, rounded to three
decimal places (JS double arithmetic modelled by exact rationals). -/
theorem metrics_connected (g : Graph) (h2 : 2 ≤ g.nodes.length)
    (hnodup : g.ids.Nodup) (hvalid : validEdges g) (hconn : specConnected g) :
    calculateGraphMetrics g (buildAdj g) =
      ⟨some (specDiameter g),
       some (round3 ((specTotalSum g : ℚ) / (specPairCount g : ℚ))),
       true⟩ := by
  have hdedup : g.ids.dedup = g.ids := List.dedup_eq_self.mpr hnodup
  have hidlen : g.ids.length = g.nodes.length := by
    rw [Graph.ids, List.length_map]
  have hlen2 : 2 ≤ g.ids.length := by rw [hidlen]; exact h2
  have hsrc : ∀ nd ∈ g.nodes, ∀ b ∈ g.ids.dedup,
      (bfs nd.id (buildAdj g) g.nodes).dist b
        = some (some (sdist (buildAdj g) nd.id b)) := by
    intro nd hnd b hb
    have hid : nd.id ∈ g.ids := List.mem_map_of_mem (fun nd => nd.id) hnd
    exact bfs_dist_eq_sdist g hvalid (fun c hc => hconn nd.id hid c hc) b (hdedup ▸ hb)
  have hsum : ∀ a ∈ g.ids,
      ((g.ids.filter (fun b => decide (b ≠ a))).map
          (fun b => sdist (buildAdj g) a b)).sum
        = (g.ids.map (fun b => sdist (buildAdj g) a b)).sum := by
    intro a _
    apply sum_map_filter_zero
    intro b _ hpb
    have hba : b = a := not_not.mp (of_decide_eq_false hpb)
    rw [hba]
    exact sdist_self (buildAdj g) a
  have hcnt : ∀ a ∈ g.ids,
      (g.ids.filter (fun b => decide (0 < sdist (buildAdj g) a b))).length
        = (g.ids.filter (fun b => decide (b ≠ a))).length := by
    intro a ha
    have hfe : g.ids.filter (fun b => decide (0 < sdist (buildAdj g) a b))
        = g.ids.filter (fun b => decide (b ≠ a)) := by
      apply List.filter_congr
      intro b hb
      by_cases hba : b = a
      · rw [hba, sdist_self]
        simp
      · have hpos := sdist_pos (hconn a ha b hb) hba
        simp [hba, hpos]
    rw [hfe]
  have hpc : 0 < specPairCount g := by
    rcases hids : g.ids with _ | ⟨a, _ | ⟨b, t⟩⟩
    · rw [hids] at hlen2
      simp at hlen2
    · rw [hids] at hlen2
      simp at hlen2
    · rw [specPairCount, hids, List.map_cons, List.sum_cons]
      have hnd : (a :: b :: t).Nodup := hids ▸ hnodup
      have hab : ¬(a = b) := by
        intro h
        exact (List.nodup_cons.mp hnd).1 (h ▸ List.mem_cons_self b t)
      have hbmem : b ∈ (a :: b :: t).filter (fun x => decide (x ≠ a)) :=
        List.mem_filter.mpr ⟨List.mem_cons_of_mem a (List.mem_cons_self b t),
          decide_eq_true (fun h => hab h.symm)⟩
      have hlenpos := List.length_pos_of_mem hbmem
      omega
  rcases hnodes : g.nodes with _ | ⟨nd₀, rest⟩
  · rw [hnodes] at h2
    simp at h2
  have hn1 : ¬(g.nodes.length ≤ 1) := by omega
  have hids2 : g.ids = (nd₀ :: rest).map (fun nd => nd.id) := by rw [Graph.ids, hnodes]
  have henum : g.nodes.enum = (0, nd₀) :: List.enumFrom 1 rest := by
    rw [hnodes, List.enum_cons]
  have hstep0 : metricsStep g (buildAdj g) g.nodes.length ⟨0, 0, 0, true, 0⟩ 0 nd₀
      = (⟨g.ids.dedup.foldl (fun m b => max m (sdist (buildAdj g) nd₀.id b)) 0,
          0 + (g.ids.dedup.map (fun b => sdist (buildAdj g) nd₀.id b)).sum,
          0 + (g.ids.dedup.filter
              (fun b => decide (0 < sdist (buildAdj g) nd₀.id b))).length,
          true, g.nodes.length⟩ : MetricsAcc) :=
    metricsStep_conn_zero g (buildAdj g) g.nodes.length ⟨0, 0, 0, true, 0⟩ nd₀
      (fun b => sdist (buildAdj g) nd₀.id b)
      (hsrc nd₀ (by rw [hnodes]; exact List.mem_cons_self nd₀ rest))
      (by rw [hdedup]; exact hidlen)
  have htail := metricsFold_conn_tail g (buildAdj g) g.nodes.length
    (fun a b => sdist (buildAdj g) a b) hsrc (List.enumFrom 1 rest)
    (⟨g.ids.dedup.foldl (fun m b => max m (sdist (buildAdj g) nd₀.id b)) 0,
      0 + (g.ids.dedup.map (fun b => sdist (buildAdj g) nd₀.id b)).sum,
      0 + (g.ids.dedup.filter
          (fun b => decide (0 < sdist (buildAdj g) nd₀.id b))).length,
      true, g.nodes.length⟩ : MetricsAcc)
    (fun p hp => by have h := mem_enumFrom_le 1 rest p hp; omega)
    (fun p hp => by
      rw [hnodes]
      exact List.mem_cons_of_mem nd₀ (mem_enumFrom_snd 1 rest p hp))
    rfl
    (by show g.nodes.length = g.ids.dedup.length; rw [hdedup, hidlen])
  have hfold1' : List.foldl
      (fun a p => metricsStep g (buildAdj g) g.nodes.length a p.1 p.2)
      ⟨0, 0, 0, true, 0⟩ ((0, nd₀) :: List.enumFrom 1 rest)
      = List.foldl (fun a p => metricsStep g (buildAdj g) g.nodes.length a p.1 p.2)
        (⟨g.ids.dedup.foldl (fun m b => max m (sdist (buildAdj g) nd₀.id b)) 0,
          0 + (g.ids.dedup.map (fun b => sdist (buildAdj g) nd₀.id b)).sum,
          0 + (g.ids.dedup.filter
              (fun b => decide (0 < sdist (buildAdj g) nd₀.id b))).length,
          true, g.nodes.length⟩ : MetricsAcc) (List.enumFrom 1 rest) := by
    rw [List.foldl_cons, hstep0]
  have hDiam : (List.enumFrom 1 rest).foldl
      (fun m p => g.ids.dedup.foldl
        (fun m b => max m (sdist (buildAdj g) p.2.id b)) m)
      (g.ids.dedup.foldl (fun m b => max m (sdist (buildAdj g) nd₀.id b)) 0)
      = specDiameter g := by
    rw [hdedup]
    have h1 := enumFrom_foldl_body
      (fun nd m => g.ids.foldl (fun m b => max m (sdist (buildAdj g) nd.id b)) m)
      rest 1
      (g.ids.foldl (fun m b => max m (sdist (buildAdj g) nd₀.id b)) 0)
    refine h1.trans ?_
    have hspecD : specDiameter g
        = (nd₀ :: rest).foldl
            (fun m nd => g.ids.foldl
              (fun m b => max m (sdist (buildAdj g) nd.id b)) m) 0 := by
      rw [specDiameter]
      nth_rewrite 2 [hids2]
      rw [List.foldl_map]
    rw [hspecD, List.foldl_cons]
  have hSum : 0 + (g.ids.dedup.map (fun b => sdist (buildAdj g) nd₀.id b)).sum
      + ((List.enumFrom 1 rest).map
          (fun p => (g.ids.dedup.map (fun b => sdist (buildAdj g) p.2.id b)).sum)).sum
      = specTotalSum g := by
    rw [hdedup]
    rw [enumFrom_map_body
      (fun nd => (g.ids.map (fun b => sdist (buildAdj g) nd.id b)).sum) rest 1]
    have hspecT : specTotalSum g
        = ((nd₀ :: rest).map
            (fun nd => (g.ids.map (fun b => sdist (buildAdj g) nd.id b)).sum)).sum := by
      rw [specTotalSum]
      have hcong : g.ids.map (fun a => ((g.ids.filter (fun b => decide (b ≠ a))).map
            (fun b => sdist (buildAdj g) a b)).sum)
          = g.ids.map (fun a => (g.ids.map (fun b => sdist (buildAdj g) a b)).sum) := by
        apply map_congr_on
        intro a ha
        exact hsum a ha
      rw [hcong]
      nth_rewrite 2 [hids2]
      rw [List.map_map]
      rfl
    rw [hspecT, List.map_cons, List.sum_cons, Nat.zero_add]
  have hCnt : 0 + (g.ids.dedup.filter
        (fun b => decide (0 < sdist (buildAdj g) nd₀.id b))).length
      + ((List.enumFrom 1 rest).map
          (fun p => (g.ids.dedup.filter
            (fun b => decide (0 < sdist (buildAdj g) p.2.id b))).length)).sum
      = specPairCount g := by
    rw [hdedup]
    rw [enumFrom_map_body
      (fun nd => (g.ids.filter
        (fun b => decide (0 < sdist (buildAdj g) nd.id b))).length) rest 1]
    have hspecC : specPairCount g
        = ((nd₀ :: rest).map
            (fun nd => (g.ids.filter
              (fun b => decide (0 < sdist (buildAdj g) nd.id b))).length)).sum := by
      rw [specPairCount]
      have hcong : g.ids.map (fun a => (g.ids.filter (fun b => decide (b ≠ a))).length)
          = g.ids.map (fun a => (g.ids.filter
              (fun b => decide (0 < sdist (buildAdj g) a b))).length) := by
        apply map_congr_on
        intro a ha
        exact (hcnt a ha).symm
      rw [hcong]
      nth_rewrite 2 [hids2]
      rw [List.map_map]
      rfl
    rw [hspecC, List.map_cons, List.sum_cons, Nat.zero_add]
  have hACC : List.foldl
      (fun a p => metricsStep g (buildAdj g) g.nodes.length a p.1 p.2)
      ⟨0, 0, 0, true, 0⟩ g.nodes.enum
      = (⟨specDiameter g, specTotalSum g, specPairCount g, true,
          g.nodes.length⟩ : MetricsAcc) := by
    rw [henum, hfold1', htail, MetricsAcc.mk.injEq]
    exact ⟨hDiam, hSum, hCnt, rfl, rfl⟩
  rw [calculateGraphMetrics]
  rw [if_neg hn1, hACC, Metrics.mk.injEq]
  refine ⟨rfl, ?_, rfl⟩
  split
  · rfl
  · rename_i hcond
    exact absurd ⟨rfl, hpc⟩ hcond

/-- Every two nodes of the triangle Ring(3, 1) are joined by a walk of
length at most one. -/
theorem ring3_connected : specConnected (generateRing 3 1) := by
  intro a ha b hb
  have hids : (generateRing 3 1).ids = [0, 1, 2] := by decide
  rw [hids] at ha hb
  fin_cases ha <;> fin_cases hb <;>
    first
      | exact ⟨0, WalkN.refl⟩
      | exact ⟨1, WalkN.step WalkN.refl (by decide)⟩

/-- C3 witness: the theorem applied to the triangle Ring(3, 1). -/
theorem metrics_connected_witness :
    (2 ≤ (generateRing 3 1).nodes.length ∧ (generateRing 3 1).ids.Nodup ∧
      validEdges (generateRing 3 1) ∧ specConnected (generateRing 3 1)) ∧
    calculateGraphMetrics (generateRing 3 1) (buildAdj (generateRing 3 1)) =
      ⟨some (specDiameter (generateRing 3 1)),
       some (round3 ((specTotalSum (generateRing 3 1) : ℚ)
         / (specPairCount (generateRing 3 1) : ℚ))),
       true⟩ :=
  ⟨⟨by decide, by decide, by unfold validEdges; decide, ring3_connected⟩,
   metrics_connected (generateRing 3 1) (by decide) (by decide)
     (by unfold validEdges; decide) ring3_connected⟩

end TV

